import Mathlib

/-! # Go-Blockchain: the block hasher

A shallow embedding of `main.go` (type `Block`, the package variable
`Blockchain`, and `calculateHash`) together with the parts of the Go runtime
and standard library that `calculateHash` calls:

* the conversion `string(int)` (`runtime.intstring` and `runtime.encoderune`),
* `crypto/sha256` (`New`, `Write`, `Sum`, `checkSum`, `blockGeneric`),
* `encoding/hex` (`EncodeToString`).

The file names the packages `sha256` and `hex` without an import clause; they
are read as the standard packages `crypto/sha256` and `encoding/hex`.

The code is embedded twice. The first embedding gives the values and reads
arrays and slices with total functions. The second, in the namespace
`Checked`, runs the same statements with every index and slice expression
checked as Go checks it at run time; it is proved to return, on every input,
what the first returns.

A Go `string` and a Go `[]byte` are both arbitrary byte sequences, so both are
lists of bytes here. A Go `int` is modelled by `Int`; the only operation the
program applies to an `int` is the conversion to `string`, which is modelled on
all of `Int` exactly as Go defines it on `int64`. A `uint32` or `uint64` is a
`Nat` reduced modulo `2 ^ 32` or `2 ^ 64` after every operation that can carry.
-/

namespace GoBlockchain

/-- A Go `string` (equally a `[]byte`): a finite sequence of arbitrary bytes. -/
abbrev GoString := List UInt8

/-- The bytes of a Go string literal: the UTF-8 encoding of its text. -/
def lit (s : String) : GoString := s.toUTF8.data.toList

/-- The Go conversion `byte(n)` of a non-negative integer: keep the low 8 bits. -/
def byte (n : Nat) : UInt8 := UInt8.ofNat (n % 256)

/-! ## `main.go`: the data model -/

/-- The struct `Block` of `main.go`. -/
structure Block where
  Index : Int
  Timestamp : GoString
  BPM : Int
  Hash : GoString
  PrevHash : GoString
  deriving DecidableEq, Repr

/-- The package-level variables of `main.go`: `var Blockchain []Block`. -/
structure Globals where
  Blockchain : List Block
  deriving DecidableEq, Repr

/-! ## Go runtime: `string(int)` -/

namespace runtime

def runeError : Int := 0xFFFD
def maxRune : Nat := 0x10FFFF
def surrogateMin : Nat := 0xD800
def surrogateMax : Nat := 0xDFFF
def rune1Max : Nat := 0x7F
def rune2Max : Nat := 0x7FF
def rune3Max : Nat := 0xFFFF
def tx : Nat := 0x80
def t2 : Nat := 0xC0
def t3 : Nat := 0xE0
def t4 : Nat := 0xF0
def maskx : Nat := 0x3F

/-- The Go conversion `rune(v)` (`int32(v)`): two's-complement truncation to 32 bits. -/
def toRune (v : Int) : Int := (v + 2 ^ 31) % 2 ^ 32 - 2 ^ 31

/-- The Go conversion `uint32(r)`. -/
def toUint32 (r : Int) : Nat := (r % 2 ^ 32).toNat

/-- The Go conversion `byte(r)` of a signed integer: the low 8 bits. -/
def byteOfRune (r : Int) : Nat := (r % 256).toNat

/-- The function `encoderune` of the Go runtime: the bytes written to `p` (the
first `n` bytes of `p`, where `n` is the returned count). -/
def encoderune (r : Int) : GoString :=
  let i := toUint32 r
  if i ≤ rune1Max then
    [byte (byteOfRune r)]
  else if i ≤ rune2Max then
    [byte (t2 ||| byteOfRune (r >>> (6 : Nat))),
     byte (tx ||| (byteOfRune r &&& maskx))]
  else if i > maxRune ∨ (surrogateMin ≤ i ∧ i ≤ surrogateMax) then
    let r := runeError
    [byte (t3 ||| byteOfRune (r >>> (12 : Nat))),
     byte (tx ||| (byteOfRune (r >>> (6 : Nat)) &&& maskx)),
     byte (tx ||| (byteOfRune r &&& maskx))]
  else if i ≤ rune3Max then
    [byte (t3 ||| byteOfRune (r >>> (12 : Nat))),
     byte (tx ||| (byteOfRune (r >>> (6 : Nat)) &&& maskx)),
     byte (tx ||| (byteOfRune r &&& maskx))]
  else
    [byte (t4 ||| byteOfRune (r >>> (18 : Nat))),
     byte (tx ||| (byteOfRune (r >>> (12 : Nat)) &&& maskx)),
     byte (tx ||| (byteOfRune (r >>> (6 : Nat)) &&& maskx)),
     byte (tx ||| (byteOfRune r &&& maskx))]

/-- The function `intstring` of the Go runtime, which implements the conversion
`string(v)` of an integer `v`:
`if int64(rune(v)) != v { v = runeError }; n := encoderune(b, rune(v)); return s[:n]`. -/
def intstring (v : Int) : GoString :=
  let v := if toRune v ≠ v then runeError else v
  encoderune (toRune v)

end runtime

/-! ## Go standard library: `encoding/hex` -/

namespace hex

def hextable : GoString := lit "0123456789abcdef"

/-- The loop of `hex.Encode`: two characters of `hextable` per source byte. -/
def Encode (src : List UInt8) : List UInt8 :=
  src.flatMap fun v =>
    [hextable.getD (v.toNat >>> 4) 0, hextable.getD (v.toNat &&& 0x0f) 0]

/-- The function `hex.EncodeToString`. -/
def EncodeToString (src : List UInt8) : GoString := Encode src

end hex

/-! ## Go standard library: `math/bits` and `encoding/binary` -/

namespace bits

/-- The function `bits.RotateLeft32(x, k)`: `s := uint(k) & 31; x<<s | x>>(32-s)`. -/
def RotateLeft32 (x : Nat) (k : Int) : Nat :=
  let s := (k % 32).toNat
  ((x <<< s) % 2 ^ 32) ||| (x >>> (32 - s))

end bits

namespace binary

/-- The bytes stored by `binary.BigEndian.PutUint32`. -/
def PutUint32 (v : Nat) : List UInt8 :=
  [byte (v >>> 24), byte (v >>> 16), byte (v >>> 8), byte v]

/-- The bytes stored by `binary.BigEndian.PutUint64`. -/
def PutUint64 (v : Nat) : List UInt8 :=
  [byte (v >>> 56), byte (v >>> 48), byte (v >>> 40), byte (v >>> 32),
   byte (v >>> 24), byte (v >>> 16), byte (v >>> 8), byte v]

end binary

/-! ## Go standard library: `crypto/sha256` -/

namespace sha256

def chunk : Nat := 64
def Size : Nat := 32

/-- The initial hash value `init0 .. init7`. -/
def init : List Nat :=
  [0x6A09E667, 0xBB67AE85, 0x3C6EF372, 0xA54FF53A,
   0x510E527F, 0x9B05688C, 0x1F83D9AB, 0x5BE0CD19]

/-- The round constants `_K`. -/
def _K : List Nat :=
  [0x428A2F98, 0x71374491, 0xB5C0FBCF, 0xE9B5DBA5, 0x3956C25B, 0x59F111F1, 0x923F82A4, 0xAB1C5ED5,
   0xD807AA98, 0x12835B01, 0x243185BE, 0x550C7DC3, 0x72BE5D74, 0x80DEB1FE, 0x9BDC06A7, 0xC19BF174,
   0xE49B69C1, 0xEFBE4786, 0x0FC19DC6, 0x240CA1CC, 0x2DE92C6F, 0x4A7484AA, 0x5CB0A9DC, 0x76F988DA,
   0x983E5152, 0xA831C66D, 0xB00327C8, 0xBF597FC7, 0xC6E00BF3, 0xD5A79147, 0x06CA6351, 0x14292967,
   0x27B70A85, 0x2E1B2138, 0x4D2C6DFC, 0x53380D13, 0x650A7354, 0x766A0ABB, 0x81C2C92E, 0x92722C85,
   0xA2BFE8A1, 0xA81A664B, 0xC24B8B70, 0xC76C51A3, 0xD192E819, 0xD6990624, 0xF40E3585, 0x106AA070,
   0x19A4C116, 0x1E376C08, 0x2748774C, 0x34B0BCB5, 0x391C0CB3, 0x4ED8AA4A, 0x5B9CCA4F, 0x682E6FF3,
   0x748F82EE, 0x78A5636F, 0x84C87814, 0x8CC70208, 0x90BEFFFA, 0xA4506CEB, 0xBEF9A3F7, 0xC67178F2]

/-- Addition of `uint32` values. -/
def add32 (a b : Nat) : Nat := (a + b) % 2 ^ 32

/-- The Go operator `^x` on a `uint32`: bitwise complement. -/
def not32 (x : Nat) : Nat := (2 ^ 32 - 1) - x % 2 ^ 32

/-- The eight working variables `a .. h` of `blockGeneric`. -/
structure Vars where
  a : Nat
  b : Nat
  c : Nat
  d : Nat
  e : Nat
  f : Nat
  g : Nat
  h : Nat

/-- The first inner loop of `blockGeneric`: `w[i]` for `i < 16` is the big-endian
word at `p[4*i ..]`. The array `w` starts zeroed. -/
def loadWords (p : List UInt8) : List Nat :=
  (List.range 16).foldl
    (fun w i =>
      let j := i * 4
      w.set i (((p.getD j 0).toNat <<< 24) ||| ((p.getD (j + 1) 0).toNat <<< 16)
        ||| ((p.getD (j + 2) 0).toNat <<< 8) ||| (p.getD (j + 3) 0).toNat))
    (List.replicate 64 0)

/-- The second inner loop of `blockGeneric`: `w[i]` for `16 ≤ i < 64`. -/
def extendWords (w : List Nat) : List Nat :=
  (List.range' 16 48).foldl
    (fun w i =>
      let v1 := w.getD (i - 2) 0
      let t1 := (bits.RotateLeft32 v1 (-17)) ^^^ (bits.RotateLeft32 v1 (-19)) ^^^ (v1 >>> 10)
      let v2 := w.getD (i - 15) 0
      let t2 := (bits.RotateLeft32 v2 (-7)) ^^^ (bits.RotateLeft32 v2 (-18)) ^^^ (v2 >>> 3)
      w.set i (add32 (add32 (add32 t1 (w.getD (i - 7) 0)) t2) (w.getD (i - 16) 0)))
    w

/-- One iteration of the third inner loop of `blockGeneric`. -/
def round (w : List Nat) (s : Vars) (i : Nat) : Vars :=
  let t1 := add32 (add32 (add32 (add32 s.h
      ((bits.RotateLeft32 s.e (-6)) ^^^ (bits.RotateLeft32 s.e (-11))
        ^^^ (bits.RotateLeft32 s.e (-25))))
      ((s.e &&& s.f) ^^^ (not32 s.e &&& s.g))) (_K.getD i 0)) (w.getD i 0)
  let t2 := add32
      ((bits.RotateLeft32 s.a (-2)) ^^^ (bits.RotateLeft32 s.a (-13))
        ^^^ (bits.RotateLeft32 s.a (-22)))
      ((s.a &&& s.b) ^^^ (s.a &&& s.c) ^^^ (s.b &&& s.c))
  { h := s.g, g := s.f, f := s.e, e := add32 s.d t1,
    d := s.c, c := s.b, b := s.a, a := add32 t1 t2 }

/-- One iteration of the outer loop of `blockGeneric`: the chunk `p[0 .. 64]` is
absorbed into the hash value `hs` (`h0 .. h7`). -/
def blockChunk (hs : List Nat) (p : List UInt8) : List Nat :=
  let w := extendWords (loadWords p)
  let s0 : Vars :=
    { a := hs.getD 0 0, b := hs.getD 1 0, c := hs.getD 2 0, d := hs.getD 3 0,
      e := hs.getD 4 0, f := hs.getD 5 0, g := hs.getD 6 0, h := hs.getD 7 0 }
  let s := (List.range 64).foldl (round w) s0
  [add32 s0.a s.a, add32 s0.b s.b, add32 s0.c s.c, add32 s0.d s.d,
   add32 s0.e s.e, add32 s0.f s.f, add32 s0.g s.g, add32 s0.h s.h]

/-- The outer loop `for len(p) >= chunk` of `blockGeneric`, by recursion on a
bound `n` on the number of iterations. -/
def blockLoop : Nat → List Nat → List UInt8 → List Nat
  | 0, hs, _ => hs
  | n + 1, hs, p =>
    if p.length ≥ chunk then blockLoop n (blockChunk hs p) (p.drop chunk) else hs

/-- The function `blockGeneric(dig, p)`: the new value of `dig.h`. The loop runs
at most `len(p) / chunk` times. -/
def blockGeneric (hs : List Nat) (p : List UInt8) : List Nat :=
  blockLoop (p.length / chunk) hs p

/-- The struct `digest` (the field `is224` is false for `sha256.New`). -/
structure digest where
  h : List Nat
  x : List UInt8
  nx : Nat
  len : Nat

/-- The function `sha256.New`: a zeroed `digest` after `Reset`. -/
def New : digest :=
  { h := init, x := List.replicate chunk 0, nx := 0, len := 0 }

/-- The Go builtin `copy(dst[off:], src)`: the new contents of `dst` and the
number of bytes copied. -/
def copyAt (dst : List UInt8) (off : Nat) (src : List UInt8) : List UInt8 × Nat :=
  let n := min (dst.length - off) src.length
  (dst.take off ++ src.take n ++ dst.drop (off + n), n)

/-- The first statement of `(*digest).Write` after the length update,
`if d.nx > 0 { ... }`: top up the pending buffer `d.x` from `p`, hash it when
it is full, and drop the bytes used from `p`. -/
def digest.Write.fill (d : digest) (p : List UInt8) : digest × List UInt8 :=
  if d.nx > 0 then
    let (x, n) := copyAt d.x d.nx p
    let d := { d with x := x, nx := d.nx + n }
    let d := if d.nx = chunk then { d with h := blockGeneric d.h d.x, nx := 0 } else d
    (d, p.drop n)
  else (d, p)

/-- The second statement of `(*digest).Write`, `if len(p) >= chunk { ... }`:
hash the whole chunks at the front of `p`; `n` is `len(p) &^ (chunk - 1)`. -/
def digest.Write.blocks (d : digest) (p : List UInt8) : digest × List UInt8 :=
  if p.length ≥ chunk then
    let n := p.length - p.length % chunk
    ({ d with h := blockGeneric d.h (p.take n) }, p.drop n)
  else (d, p)

/-- The third statement of `(*digest).Write`, `if len(p) > 0 { ... }`: keep the
rest of `p` in the buffer `d.x`. -/
def digest.Write.stash (d : digest) (p : List UInt8) : digest :=
  if p.length > 0 then
    let (x, n) := copyAt d.x 0 p
    { d with x := x, nx := n }
  else d

/-- The method `(*digest).Write`: the updated digest and the results `nn`, `err`
(`none` is Go's `nil` error). -/
def digest.Write (d : digest) (p : List UInt8) : digest × Nat × Option String :=
  let nn := p.length
  let d := { d with len := (d.len + nn) % 2 ^ 64 }
  let (d, p) := digest.Write.fill d p
  let (d, p) := digest.Write.blocks d p
  let d := digest.Write.stash d p
  (d, nn, none)

/-- The method `(*digest).checkSum`; `Except.error` is a Go panic. The slice
`padlen` is `tmp[:t+8]` with its last eight bytes overwritten by `PutUint64`,
that is `tmp[:t]` followed by the eight length bytes. -/
def digest.checkSum (d : digest) : Except String (List UInt8) :=
  let len := d.len
  let tmp : List UInt8 := (0x80 : UInt8) :: List.replicate (64 + 8 - 1) 0
  let t := if len % 64 < 56 then 56 - len % 64 else 64 + 56 - len % 64
  let len := (len <<< 3) % 2 ^ 64
  let padlen := tmp.take t ++ binary.PutUint64 len
  let d := (d.Write padlen).1
  if d.nx ≠ 0 then
    Except.error "d.nx != 0"
  else
    Except.ok (binary.PutUint32 (d.h.getD 0 0) ++ binary.PutUint32 (d.h.getD 1 0)
      ++ binary.PutUint32 (d.h.getD 2 0) ++ binary.PutUint32 (d.h.getD 3 0)
      ++ binary.PutUint32 (d.h.getD 4 0) ++ binary.PutUint32 (d.h.getD 5 0)
      ++ binary.PutUint32 (d.h.getD 6 0) ++ binary.PutUint32 (d.h.getD 7 0))

/-- The method `(*digest).Sum(in)`: works on a copy of `d` and appends the
checksum to `in`. -/
def digest.Sum (d : digest) (inp : List UInt8) : Except String (List UInt8) :=
  let d0 := d
  (d0.checkSum).map fun hash => inp ++ hash

/-- The digest `d` has absorbed the message `m`: the whole chunks of `m` are
hashed into `d.h` and the rest of `m` waits in `d.x[0 .. d.nx]`. -/
def Absorbed (d : digest) (m : List UInt8) : Prop :=
  d.x.length = chunk ∧ d.nx < chunk ∧
    ∃ a : List UInt8, m = a ++ d.x.take d.nx ∧ a.length % chunk = 0 ∧ d.h = blockGeneric init a

end sha256

/-! ## `main.go`: `calculateHash` -/

/-- What a call of `calculateHash` leaves behind: the returned string, the value
of the parameter variable `block` at the return, and the package variables. -/
structure Outcome where
  ret : GoString
  block : Block
  globals : Globals
  deriving DecidableEq, Repr

/-- The local variable `record` of `calculateHash`:
`string(block.Index) + block.Timestamp + string(block.BPM) + block.PrevHash`. -/
def calculateHash.record (block : Block) : GoString :=
  runtime.intstring block.Index ++ block.Timestamp ++ runtime.intstring block.BPM
    ++ block.PrevHash

/-- The function `calculateHash` of `main.go`, run with the package variables
`g`; `Except.error` is a Go panic. -/
def calculateHash (block : Block) (g : Globals) : Except String Outcome :=
  let record := calculateHash.record block
  let h := sha256.New
  let h := (h.Write record).1
  match h.Sum [] with
  | Except.error e => Except.error e
  | Except.ok hashed => Except.ok { ret := hex.EncodeToString hashed, block := block, globals := g }

/-! ## Reference definitions

The notions the specification names, written from their standards and not
from the Go code: lowercase hexadecimal text, the SHA-256 digest of FIPS 180-4
(constants, padding, parsing into 512-bit blocks, message schedule, hash
computation, big-endian output) and the UTF-8 encoding of RFC 3629.
`Spec.SHA256` is checked against published test vectors below. -/

namespace Spec

/-- The lowercase hexadecimal digit of a value below 16. -/
def hexDigit (d : Nat) : UInt8 :=
  if d < 10 then byte (48 + d) else byte (97 + (d - 10))

/-- Lowercase hexadecimal text: two digits per byte, high nibble first. -/
def hexLower (bs : List UInt8) : GoString :=
  bs.flatMap fun v => [hexDigit (v.toNat / 16), hexDigit (v.toNat % 16)]

/-- A byte is a lowercase hexadecimal character: `0`-`9` or `a`-`f`. -/
def isLowerHexChar (c : UInt8) : Prop :=
  (48 ≤ c.toNat ∧ c.toNat ≤ 57) ∨ (97 ≤ c.toNat ∧ c.toNat ≤ 102)

instance : DecidablePred isLowerHexChar := fun c => by
  unfold isLowerHexChar; infer_instance

/-- The `n`-byte big-endian representation of `v` (modulo `256 ^ n`). -/
def bigEndian (n v : Nat) : List UInt8 :=
  (List.range n).map fun i => byte (v / 256 ^ (n - 1 - i))

/-- The first 64 prime numbers. -/
def primes64 : List Nat :=
  [2, 3, 5, 7, 11, 13, 17, 19, 23, 29, 31, 37, 41, 43, 47, 53,
   59, 61, 67, 71, 73, 79, 83, 89, 97, 101, 103, 107, 109, 113, 127, 131,
   137, 139, 149, 151, 157, 163, 167, 173, 179, 181, 191, 193, 197, 199, 211, 223,
   227, 229, 233, 239, 241, 251, 257, 263, 269, 271, 277, 281, 283, 293, 307, 311]

/-- Bisection for an integer root: starting from `r`, add each of the bits
`2 ^ (b - 1), .., 2, 1` that keeps `r ^ k ≤ n`. -/
def irootAux (k n : Nat) : Nat → Nat → Nat
  | 0, r => r
  | b + 1, r => if (r + 2 ^ b) ^ k ≤ n then irootAux k n b (r + 2 ^ b) else irootAux k n b r

/-- The integer `k`-th root of `n`, for `n < 2 ^ (64 * k)`: the floor of the
real root. -/
def iroot (k n : Nat) : Nat := irootAux k n 64 0

/-- FIPS 180-4, section 4.2.2: the first 32 bits of the fractional parts of the
cube roots of the first 64 primes. -/
def K : List Nat := primes64.map fun p => iroot 3 (p * 2 ^ 96) % 2 ^ 32

/-- FIPS 180-4, section 5.3.3: the first 32 bits of the fractional parts of the
square roots of the first 8 primes. -/
def H0 : List Nat := (primes64.take 8).map fun p => iroot 2 (p * 2 ^ 64) % 2 ^ 32

/-- FIPS 180-4, section 3.2: rotate a 32-bit word right by `n` bits. -/
def ROTR (n x : Nat) : Nat := (x >>> n) ||| ((x <<< (32 - n)) % 2 ^ 32)

/-- FIPS 180-4, section 3.2: shift a word right by `n` bits. -/
def SHR (n x : Nat) : Nat := x >>> n

/-- Addition modulo `2 ^ 32` (FIPS 180-4, section 3.2). -/
def plus (x y : Nat) : Nat := (x + y) % 2 ^ 32

/-- FIPS 180-4, (4.2): `Ch(x, y, z) = (x ∧ y) ⊕ (¬x ∧ z)` on 32-bit words. -/
def Ch (x y z : Nat) : Nat := (x &&& y) ^^^ ((2 ^ 32 - 1 - x % 2 ^ 32) &&& z)

/-- FIPS 180-4, (4.3): `Maj(x, y, z) = (x ∧ y) ⊕ (x ∧ z) ⊕ (y ∧ z)`. -/
def Maj (x y z : Nat) : Nat := (x &&& y) ^^^ (x &&& z) ^^^ (y &&& z)

/-- FIPS 180-4, (4.4). -/
def Sigma0 (x : Nat) : Nat := ROTR 2 x ^^^ ROTR 13 x ^^^ ROTR 22 x

/-- FIPS 180-4, (4.5). -/
def Sigma1 (x : Nat) : Nat := ROTR 6 x ^^^ ROTR 11 x ^^^ ROTR 25 x

/-- FIPS 180-4, (4.6). -/
def sigma0 (x : Nat) : Nat := ROTR 7 x ^^^ ROTR 18 x ^^^ SHR 3 x

/-- FIPS 180-4, (4.7). -/
def sigma1 (x : Nat) : Nat := ROTR 17 x ^^^ ROTR 19 x ^^^ SHR 10 x

/-- The 32-bit word `M_t` of a message block: four bytes, most significant
first (FIPS 180-4, sections 3.1 and 5.2.1). -/
def word (M : List UInt8) (t : Nat) : Nat :=
  2 ^ 24 * (M.getD (4 * t) 0).toNat + (2 ^ 16 * (M.getD (4 * t + 1) 0).toNat
    + (2 ^ 8 * (M.getD (4 * t + 2) 0).toNat + (M.getD (4 * t + 3) 0).toNat))

/-- One more word of the message schedule: from `W_0 .. W_(t-1)` to
`W_0 .. W_t` with `W_t = σ1(W_(t-2)) + W_(t-7) + σ0(W_(t-15)) + W_(t-16)`. -/
def scheduleStep (W : List Nat) : List Nat :=
  let t := W.length
  W ++ [plus (plus (plus (sigma1 (W.getD (t - 2) 0)) (W.getD (t - 7) 0))
    (sigma0 (W.getD (t - 15) 0))) (W.getD (t - 16) 0)]

/-- The message schedule `W_0 .. W_63` of a block (FIPS 180-4, 6.2.2 step 1). -/
def schedule (M : List UInt8) : List Nat :=
  Nat.iterate scheduleStep 48 ((List.range 16).map (word M))

/-- Round `t` on the working variables `[a, b, c, d, e, f, g, h]`
(FIPS 180-4, 6.2.2 step 3). -/
def step (W : List Nat) (v : List Nat) (t : Nat) : List Nat :=
  match v with
  | [a, b, c, d, e, f, g, h] =>
    let T1 := plus (plus (plus (plus h (Sigma1 e)) (Ch e f g)) (K.getD t 0)) (W.getD t 0)
    let T2 := plus (Sigma0 a) (Maj a b c)
    [plus T1 T2, a, b, c, plus d T1, e, f, g]
  | _ => v

/-- The hash computation on one block (FIPS 180-4, 6.2.2): the next hash value
from the hash value `H` and the block `M`. -/
def compress (H : List Nat) (M : List UInt8) : List Nat :=
  List.zipWith plus H ((List.range 64).foldl (step (schedule M)) H)

/-- The padding of FIPS 180-4, section 5.1.1: the bit `1`, then the least number
`k` of zero bits that brings the length to 448 modulo 512, then the message
length in bits as a 64-bit big-endian number. In bytes: `0x80`, then
`(119 - len % 64) % 64` zero bytes, then eight length bytes. -/
def pad (m : List UInt8) : List UInt8 :=
  m ++ [0x80] ++ List.replicate ((119 - m.length % 64) % 64) 0 ++ bigEndian 8 (8 * m.length)

/-- The parsing of FIPS 180-4, section 5.2.1: the consecutive 64-byte blocks. -/
def parse (m : List UInt8) : List (List UInt8) :=
  (List.range (m.length / 64)).map fun i => (m.drop (64 * i)).take 64

/-- The SHA-256 digest of FIPS 180-4, section 6.2: the final hash value as 32
bytes. -/
def SHA256 (m : List UInt8) : List UInt8 :=
  ((parse (pad m)).foldl compress H0).flatMap (bigEndian 4)

/-- A Unicode scalar value: a code point `0 .. 0x10FFFF` outside the surrogate
range `0xD800 .. 0xDFFF`. -/
def validScalar (n : Int) : Prop :=
  0 ≤ n ∧ n ≤ 0x10FFFF ∧ ¬ (0xD800 ≤ n ∧ n ≤ 0xDFFF)

instance : DecidablePred validScalar := fun n => by
  unfold validScalar; infer_instance

/-- The UTF-8 encoding of a code point (RFC 3629, section 3): one to four bytes
`0xxxxxxx`, `110xxxxx 10xxxxxx`, `1110xxxx 10xxxxxx 10xxxxxx`,
`11110xxx 10xxxxxx 10xxxxxx 10xxxxxx`. -/
def utf8 (n : Nat) : List UInt8 :=
  if n < 0x80 then [byte n]
  else if n < 0x800 then [byte (0xC0 + n / 64), byte (0x80 + n % 64)]
  else if n < 0x10000 then
    [byte (0xE0 + n / 4096), byte (0x80 + n / 64 % 64), byte (0x80 + n % 64)]
  else
    [byte (0xF0 + n / 262144), byte (0x80 + n / 4096 % 64), byte (0x80 + n / 64 % 64),
     byte (0x80 + n % 64)]

/-- The decimal rendering of an integer (Go's `strconv.Itoa`), as bytes. -/
def decimal (n : Int) : GoString := lit (toString n)

end Spec

/-! ## The same code with Go's run-time checks

The definitions above give the values that the Go code computes and read
arrays and slices with total functions. The definitions of this section run
the same statements with every index expression and every slice expression
checked as Go checks it at run time: an index outside `0 .. len - 1` and slice
bounds outside `0 ≤ lo ≤ hi ≤ len` are a run-time panic, here `Except.error`.
A slice of a slice is checked against its length, which is at most the
capacity that Go checks. A write through a slice goes to the array it is a
view of. Unsigned arithmetic wraps as in Go. Exhaustion of memory is not part
of the model. -/

namespace Checked

/-- The index expression `xs[i]` as a value. -/
def index {α : Type} (xs : List α) (i : Nat) : Except String α :=
  match xs[i]? with
  | some x => Except.ok x
  | none => Except.error "index out of range"

/-- The assignment `xs[i] = x`: the new contents of `xs`. -/
def setIndex {α : Type} (xs : List α) (i : Nat) (x : α) : Except String (List α) :=
  if i < xs.length then Except.ok (xs.set i x) else Except.error "index out of range"

/-- The slice expression `xs[lo:hi]`; `xs[lo:]` is `xs[lo:len(xs)]` and `xs[:hi]`
is `xs[0:hi]`. -/
def slice {α : Type} (xs : List α) (lo hi : Nat) : Except String (List α) :=
  if lo ≤ hi ∧ hi ≤ xs.length then Except.ok ((xs.take hi).drop lo)
  else Except.error "slice bounds out of range"

/-- The Go builtin `copy(dst, src)`: the new contents of `dst` and the number of
bytes copied; it does not panic. -/
def copy (dst src : List UInt8) : List UInt8 × Nat :=
  let n := min dst.length src.length
  (src.take n ++ dst.drop n, n)

/-- The Go builtin `make([]byte, n)`: `n` zero bytes; a length that is not a
non-negative `int` is a panic. -/
def make (n : Nat) : Except String (List UInt8) :=
  if n < 2 ^ 63 then Except.ok (List.replicate n 0)
  else Except.error "makeslice: len out of range"

namespace runtime
open GoBlockchain.runtime

/-- The function `encoderune(p, r)` with its writes to `p` checked: the new
contents of `p` and the number of bytes written. -/
def encoderune (p : List UInt8) (r : Int) : Except String (List UInt8 × Nat) :=
  let i := toUint32 r
  if i ≤ rune1Max then do
    let p ← setIndex p 0 (byte (byteOfRune r))
    pure (p, 1)
  else if i ≤ rune2Max then do
    let _ ← index p 1
    let p ← setIndex p 0 (byte (t2 ||| byteOfRune (r >>> (6 : Nat))))
    let p ← setIndex p 1 (byte (tx ||| (byteOfRune r &&& maskx)))
    pure (p, 2)
  else if i > maxRune ∨ (surrogateMin ≤ i ∧ i ≤ surrogateMax) then do
    let r := runeError
    let _ ← index p 2
    let p ← setIndex p 0 (byte (t3 ||| byteOfRune (r >>> (12 : Nat))))
    let p ← setIndex p 1 (byte (tx ||| (byteOfRune (r >>> (6 : Nat)) &&& maskx)))
    let p ← setIndex p 2 (byte (tx ||| (byteOfRune r &&& maskx)))
    pure (p, 3)
  else if i ≤ rune3Max then do
    let _ ← index p 2
    let p ← setIndex p 0 (byte (t3 ||| byteOfRune (r >>> (12 : Nat))))
    let p ← setIndex p 1 (byte (tx ||| (byteOfRune (r >>> (6 : Nat)) &&& maskx)))
    let p ← setIndex p 2 (byte (tx ||| (byteOfRune r &&& maskx)))
    pure (p, 3)
  else do
    let _ ← index p 3
    let p ← setIndex p 0 (byte (t4 ||| byteOfRune (r >>> (18 : Nat))))
    let p ← setIndex p 1 (byte (tx ||| (byteOfRune (r >>> (12 : Nat)) &&& maskx)))
    let p ← setIndex p 2 (byte (tx ||| (byteOfRune (r >>> (6 : Nat)) &&& maskx)))
    let p ← setIndex p 3 (byte (tx ||| (byteOfRune r &&& maskx)))
    pure (p, 4)

/-- The function `intstring(nil, v)`: `s, b = rawstring(4)`, the rune is encoded
into `b`, and the result is `s[:n]`. -/
def intstring (v : Int) : Except String GoString := do
  let b : List UInt8 := List.replicate 4 0
  let v := if toRune v ≠ v then runeError else v
  let (b, n) ← encoderune b (toRune v)
  slice b 0 n

end runtime

namespace hex
open GoBlockchain.hex

/-- The function `hex.Encode(dst, src)`: the new contents of `dst` and the
returned count. -/
def Encode (dst src : List UInt8) : Except String (List UInt8 × Nat) := do
  let (dst, _) ← src.foldlM
    (fun (acc : List UInt8 × Nat) v => do
      let c ← index hextable (v.toNat >>> 4)
      let dst ← setIndex acc.1 acc.2 c
      let c ← index hextable (v.toNat &&& 0x0f)
      let dst ← setIndex dst (acc.2 + 1) c
      pure (dst, acc.2 + 2))
    (dst, 0)
  pure (dst, src.length * 2)

/-- The function `hex.EncodeToString(src)`. -/
def EncodeToString (src : List UInt8) : Except String GoString := do
  let dst ← make (src.length * 2)
  let (dst, _) ← Encode dst src
  pure dst

end hex

namespace binary

/-- The function `binary.BigEndian.PutUint32(b, v)`: the new contents of `b`. -/
def PutUint32 (b : List UInt8) (v : Nat) : Except String (List UInt8) := do
  let _ ← index b 3
  let b ← setIndex b 0 (byte (v >>> 24))
  let b ← setIndex b 1 (byte (v >>> 16))
  let b ← setIndex b 2 (byte (v >>> 8))
  setIndex b 3 (byte v)

/-- The function `binary.BigEndian.PutUint64(b, v)`: the new contents of `b`. -/
def PutUint64 (b : List UInt8) (v : Nat) : Except String (List UInt8) := do
  let _ ← index b 7
  let b ← setIndex b 0 (byte (v >>> 56))
  let b ← setIndex b 1 (byte (v >>> 48))
  let b ← setIndex b 2 (byte (v >>> 40))
  let b ← setIndex b 3 (byte (v >>> 32))
  let b ← setIndex b 4 (byte (v >>> 24))
  let b ← setIndex b 5 (byte (v >>> 16))
  let b ← setIndex b 6 (byte (v >>> 8))
  setIndex b 7 (byte v)

end binary

namespace sha256
open GoBlockchain.sha256

/-- The first inner loop of `blockGeneric`, with the reads of `p` and the writes
to `w` checked. -/
def loadWords (p : List UInt8) : Except String (List Nat) :=
  (List.range 16).foldlM
    (fun w i => do
      let j := i * 4
      let b0 ← index p j
      let b1 ← index p (j + 1)
      let b2 ← index p (j + 2)
      let b3 ← index p (j + 3)
      setIndex w i ((b0.toNat <<< 24) ||| (b1.toNat <<< 16) ||| (b2.toNat <<< 8) ||| b3.toNat))
    (List.replicate 64 0)

/-- The second inner loop of `blockGeneric`, with the reads and writes of `w`
checked. -/
def extendWords (w : List Nat) : Except String (List Nat) :=
  (List.range' 16 48).foldlM
    (fun w i => do
      let v1 ← index w (i - 2)
      let t1 := (bits.RotateLeft32 v1 (-17)) ^^^ (bits.RotateLeft32 v1 (-19)) ^^^ (v1 >>> 10)
      let v2 ← index w (i - 15)
      let t2 := (bits.RotateLeft32 v2 (-7)) ^^^ (bits.RotateLeft32 v2 (-18)) ^^^ (v2 >>> 3)
      let w7 ← index w (i - 7)
      let w16 ← index w (i - 16)
      setIndex w i (add32 (add32 (add32 t1 w7) t2) w16))
    w

/-- One iteration of the third inner loop of `blockGeneric`, with the reads of
`_K` and `w` checked. -/
def round (w : List Nat) (s : Vars) (i : Nat) : Except String Vars := do
  let k ← index _K i
  let wi ← index w i
  let t1 := add32 (add32 (add32 (add32 s.h
      ((bits.RotateLeft32 s.e (-6)) ^^^ (bits.RotateLeft32 s.e (-11))
        ^^^ (bits.RotateLeft32 s.e (-25))))
      ((s.e &&& s.f) ^^^ (not32 s.e &&& s.g))) k) wi
  let t2 := add32
      ((bits.RotateLeft32 s.a (-2)) ^^^ (bits.RotateLeft32 s.a (-13))
        ^^^ (bits.RotateLeft32 s.a (-22)))
      ((s.a &&& s.b) ^^^ (s.a &&& s.c) ^^^ (s.b &&& s.c))
  pure { h := s.g, g := s.f, f := s.e, e := add32 s.d t1,
         d := s.c, c := s.b, b := s.a, a := add32 t1 t2 }

/-- One iteration of the outer loop of `blockGeneric`, checked. -/
def blockChunk (hs : List Nat) (p : List UInt8) : Except String (List Nat) := do
  let h0 ← index hs 0
  let h1 ← index hs 1
  let h2 ← index hs 2
  let h3 ← index hs 3
  let h4 ← index hs 4
  let h5 ← index hs 5
  let h6 ← index hs 6
  let h7 ← index hs 7
  let w ← loadWords p
  let w ← extendWords w
  let s0 : Vars := { a := h0, b := h1, c := h2, d := h3, e := h4, f := h5, g := h6, h := h7 }
  let s ← (List.range 64).foldlM (round w) s0
  pure [add32 s0.a s.a, add32 s0.b s.b, add32 s0.c s.c, add32 s0.d s.d,
        add32 s0.e s.e, add32 s0.f s.f, add32 s0.g s.g, add32 s0.h s.h]

/-- The outer loop of `blockGeneric`, checked: each iteration ends with
`p = p[chunk:]`. -/
def blockLoop : Nat → List Nat → List UInt8 → Except String (List Nat)
  | 0, hs, _ => pure hs
  | n + 1, hs, p =>
    if p.length ≥ chunk then do
      let hs ← blockChunk hs p
      let p ← slice p chunk p.length
      blockLoop n hs p
    else pure hs

/-- The function `blockGeneric(dig, p)`, checked. -/
def blockGeneric (hs : List Nat) (p : List UInt8) : Except String (List Nat) :=
  blockLoop (p.length / chunk) hs p

/-- The first statement of `(*digest).Write`, checked:
`n := copy(d.x[d.nx:], p)`, `block(d, d.x[:])`, `p = p[n:]`. -/
def fill (d : digest) (p : List UInt8) : Except String (digest × List UInt8) :=
  if d.nx > 0 then do
    let view ← slice d.x d.nx d.x.length
    let r := copy view p
    let d : digest := { d with x := d.x.take d.nx ++ r.1, nx := d.nx + r.2 }
    let d ← if d.nx = chunk then do
        let xs ← slice d.x 0 d.x.length
        let h ← blockGeneric d.h xs
        pure ({ d with h := h, nx := 0 } : digest)
      else pure d
    let p ← slice p r.2 p.length
    pure (d, p)
  else pure (d, p)

/-- The second statement of `(*digest).Write`, checked: `block(d, p[:n])`,
`p = p[n:]`. -/
def blocks (d : digest) (p : List UInt8) : Except String (digest × List UInt8) :=
  if p.length ≥ chunk then do
    let n := p.length - p.length % chunk
    let front ← slice p 0 n
    let h ← blockGeneric d.h front
    let p ← slice p n p.length
    pure ({ d with h := h }, p)
  else pure (d, p)

/-- The third statement of `(*digest).Write`, checked: `d.nx = copy(d.x[:], p)`. -/
def stash (d : digest) (p : List UInt8) : Except String digest :=
  if p.length > 0 then do
    let view ← slice d.x 0 d.x.length
    let r := copy view p
    pure { d with x := r.1, nx := r.2 }
  else pure d

/-- The method `(*digest).Write`, checked. -/
def Write (d : digest) (p : List UInt8) : Except String (digest × Nat × Option String) := do
  let nn := p.length
  let d : digest := { d with len := (d.len + nn) % 2 ^ 64 }
  let r ← fill d p
  let r ← blocks r.1 r.2
  let d ← stash r.1 r.2
  pure (d, nn, none)

/-- The method `(*digest).checkSum`, checked: `tmp[0] = 0x80`,
`padlen := tmp[:t+8]`, `PutUint64(padlen[t+0:], len)`, `d.Write(padlen)`, the
explicit panic, and the eight `PutUint32(digest[4*k:], d.h[k])`. The variable
`t` is a `uint64`. -/
def checkSum (d : digest) : Except String (List UInt8) := do
  let len := d.len
  let tmp : List UInt8 := List.replicate (64 + 8) 0
  let tmp ← setIndex tmp 0 0x80
  let t := if len % 64 < 56 then (56 + 2 ^ 64 - len % 64) % 2 ^ 64
    else (64 + 56 + 2 ^ 64 - len % 64) % 2 ^ 64
  let len := (len <<< 3) % 2 ^ 64
  let padlen ← slice tmp 0 (t + 8)
  let view ← slice padlen (t + 0) padlen.length
  let view ← binary.PutUint64 view len
  let padlen := padlen.take (t + 0) ++ view
  let r ← Write d padlen
  let d := r.1
  if d.nx ≠ 0 then
    Except.error "d.nx != 0"
  else do
    let digest : List UInt8 := List.replicate Size 0
    (List.range 8).foldlM
      (fun digest k => do
        let view ← slice digest (4 * k) digest.length
        let hk ← index d.h k
        let view ← binary.PutUint32 view hk
        pure (digest.take (4 * k) ++ view))
      digest

/-- The method `(*digest).Sum(in)`, checked: `append(in, hash[:]...)`. -/
def Sum (d : digest) (inp : List UInt8) : Except String (List UInt8) := do
  let d0 := d
  let hash ← checkSum d0
  let all ← slice hash 0 hash.length
  pure (inp ++ all)

end sha256

/-- The function `calculateHash` of `main.go` with Go's run-time checks, run
with the package variables `g`. -/
def calculateHash (block : Block) (g : Globals) : Except String Outcome := do
  let s1 ← runtime.intstring block.Index
  let s2 ← runtime.intstring block.BPM
  let record := s1 ++ block.Timestamp ++ s2 ++ block.PrevHash
  let h := GoBlockchain.sha256.New
  let r ← sha256.Write h record
  let h := r.1
  let hashed ← sha256.Sum h []
  let s ← hex.EncodeToString hashed
  pure { ret := s, block := block, globals := g }

end Checked

/-! ## Checks of the model against published values -/

/-- The list `Spec.primes64` is the list of the primes below 312, in order. -/
theorem primes64_eq : Spec.primes64 = (List.range 312).filter Nat.Prime := by
  have h : Spec.primes64 =
      (List.range 312).filter (fun p => @decide (Nat.Prime p) (Nat.decidablePrime1 p)) := by
    decide!
  exact h.trans (List.filter_congr (fun p _ => by simp))

/-- The roots used for the constants are the floors of the real roots. -/
theorem iroot_exact :
    (∀ p ∈ Spec.primes64, Spec.iroot 3 (p * 2 ^ 96) ^ 3 ≤ p * 2 ^ 96 ∧
      p * 2 ^ 96 < (Spec.iroot 3 (p * 2 ^ 96) + 1) ^ 3) ∧
    (∀ p ∈ Spec.primes64.take 8, Spec.iroot 2 (p * 2 ^ 64) ^ 2 ≤ p * 2 ^ 64 ∧
      p * 2 ^ 64 < (Spec.iroot 2 (p * 2 ^ 64) + 1) ^ 2) := by
  decide!

/-- The constants of `crypto/sha256` are those of FIPS 180-4. -/
theorem constants_eq : sha256._K = Spec.K ∧ sha256.init = Spec.H0 := by
  decide!

/-- FIPS 180-4 test vector: the digest of the empty message. -/
theorem SHA256_empty :
    Spec.hexLower (Spec.SHA256 []) =
      lit "e3b0c44298fc1c149afbf4c8996fb92427ae41e4649b934ca495991b7852b855" := by
  decide!

/-- FIPS 180-4 test vector: the digest of `abc`. -/
theorem SHA256_abc :
    Spec.hexLower (Spec.SHA256 (lit "abc")) =
      lit "ba7816bf8f01cfea414140de5dae2223b00361a396177a9cb410ff61f20015ad" := by
  decide!

/-- FIPS 180-4 test vector: a message of two blocks. -/
theorem SHA256_two_blocks :
    Spec.hexLower (Spec.SHA256
        (lit "abcdbcdecdefdefgefghfghighijhijkijkljklmklmnlmnomnopnopq")) =
      lit "248d6a61d20638b8e5c026930c3e6039a33ce45964ff2167f6ecedd419db06c1" := by
  decide!

/-- RFC 3629 examples: `A`, U+00E9, U+20AC and U+1F600 agree with the encoder
of the core library. -/
theorem utf8_examples :
    Spec.utf8 0x41 = lit "A" ∧ Spec.utf8 0xE9 = lit "é" ∧ Spec.utf8 0x20AC = lit "€" ∧
      Spec.utf8 0x1F600 = [0xF0, 0x9F, 0x98, 0x80] := by
  decide!

/-! ## The conversion `string(int)` -/

section Conversion
open runtime

theorem encoderune_runeError : encoderune runeError = [0xEF, 0xBF, 0xBD] := by decide

theorem toRune_eq_iff (n : Int) : toRune n = n ↔ (-2 ^ 31 ≤ n ∧ n < 2 ^ 31) := by
  unfold toRune; omega

theorem intstring_invalid (n : Int) (h : ¬ Spec.validScalar n) :
    intstring n = [0xEF, 0xBF, 0xBD] := by
  unfold intstring
  by_cases hr : toRune n = n
  · simp only [ne_eq, hr, not_true_eq_false, if_false]
    rw [toRune_eq_iff] at hr
    unfold Spec.validScalar at h
    have hi : toUint32 n > maxRune ∨ (surrogateMin ≤ toUint32 n ∧ toUint32 n ≤ surrogateMax) := by
      unfold toUint32 maxRune surrogateMin surrogateMax
      omega
    have h1 : ¬ toUint32 n ≤ rune1Max := by
      unfold rune1Max; unfold maxRune surrogateMin surrogateMax at hi; omega
    have h2 : ¬ toUint32 n ≤ rune2Max := by
      unfold rune2Max; unfold maxRune surrogateMin surrogateMax at hi; omega
    unfold encoderune
    simp only [h1, h2, hi, if_true, if_false]
    decide
  · simp only [ne_eq, hr, not_false_eq_true, if_true]
    decide

end Conversion

/-! ## The loop body of `blockGeneric` is the FIPS 180-4 hash computation -/

section Compression
open sha256

theorem RotateLeft32_neg (x : Nat) (k : Nat) (hk : 0 < k) (hk32 : k < 32) :
    bits.RotateLeft32 x (-(k : Int)) = Spec.ROTR k x := by
  unfold bits.RotateLeft32 Spec.ROTR
  have hs : (-(k : Int) % 32).toNat = 32 - k := by omega
  simp only [hs]
  have : 32 - (32 - k) = k := by omega
  rw [this, Nat.lor_comm]

theorem goWord_eq (b0 b1 b2 b3 : UInt8) :
    (b0.toNat <<< 24) ||| (b1.toNat <<< 16) ||| (b2.toNat <<< 8) ||| b3.toNat
      = 2 ^ 24 * b0.toNat + (2 ^ 16 * b1.toNat + (2 ^ 8 * b2.toNat + b3.toNat)) := by
  have h0 : b0.toNat < 256 := b0.val.isLt
  have h1 : b1.toNat < 256 := b1.val.isLt
  have h2 : b2.toNat < 256 := b2.val.isLt
  have h3 : b3.toNat < 256 := b3.val.isLt
  rw [Nat.mul_add_lt_is_or (by omega) b2.toNat, Nat.mul_add_lt_is_or (i := 16) _ b1.toNat,
    Nat.mul_add_lt_is_or (i := 24) _ b0.toNat]
  · simp only [Nat.shiftLeft_eq, Nat.mul_comm, Nat.lor_assoc]
  · have := Nat.mul_add_lt_is_or (i := 16) (b := 2 ^ 8 * b2.toNat ||| b3.toNat) ?_ b1.toNat
    · rw [← this, ← Nat.mul_add_lt_is_or (by omega) b2.toNat]; omega
    · rw [← Nat.mul_add_lt_is_or (by omega) b2.toNat]; omega
  · rw [← Nat.mul_add_lt_is_or (by omega) b2.toNat]; omega

theorem foldl_set_range (f : Nat → Nat) (n : Nat) : ∀ L : List Nat, n ≤ L.length →
    (List.range n).foldl (fun w i => w.set i (f i)) L = (List.range n).map f ++ L.drop n := by
  induction n with
  | zero => intro L _; rfl
  | succ n ih =>
    intro L h
    rw [List.range_succ, List.foldl_append, ih L (by omega), List.map_append, List.foldl_cons,
      List.foldl_nil, List.set_append_right _ _ (by simp), List.append_assoc]
    congr 1
    rw [List.length_map, List.length_range, Nat.sub_self, List.drop_eq_getElem_cons (by omega),
      List.set_cons_zero]
    rfl

theorem loadWords_eq (p : List UInt8) :
    loadWords p = (List.range 16).map (Spec.word p) ++ List.replicate 48 0 := by
  have e : loadWords p = (List.range 16).map (fun i =>
      ((p.getD (i * 4) 0).toNat <<< 24) ||| ((p.getD (i * 4 + 1) 0).toNat <<< 16)
        ||| ((p.getD (i * 4 + 2) 0).toNat <<< 8) ||| (p.getD (i * 4 + 3) 0).toNat)
      ++ (List.replicate 64 0).drop 16 :=
    foldl_set_range _ 16 (List.replicate 64 0) (by simp)
  rw [e, List.drop_replicate]
  congr 1
  apply List.map_congr_left
  intro i _
  rw [goWord_eq]
  unfold Spec.word
  rw [Nat.mul_comm i 4]

theorem extend_aux (k : Nat) : ∀ W : List Nat, 0 < W.length →
    (List.range' W.length k).foldl
      (fun w i =>
        let v1 := w.getD (i - 2) 0
        let t1 := (bits.RotateLeft32 v1 (-17)) ^^^ (bits.RotateLeft32 v1 (-19)) ^^^ (v1 >>> 10)
        let v2 := w.getD (i - 15) 0
        let t2 := (bits.RotateLeft32 v2 (-7)) ^^^ (bits.RotateLeft32 v2 (-18)) ^^^ (v2 >>> 3)
        w.set i (add32 (add32 (add32 t1 (w.getD (i - 7) 0)) t2) (w.getD (i - 16) 0)))
      (W ++ List.replicate k 0)
    = Nat.iterate Spec.scheduleStep k W := by
  induction k with
  | zero => intro W _; simp
  | succ k ih =>
    intro W hW
    rw [List.range'_succ, List.foldl_cons, Function.iterate_succ_apply]
    have hstep : Spec.scheduleStep W ++ List.replicate k 0 =
        (W ++ List.replicate (k + 1) 0).set W.length
          (add32 (add32 (add32
            ((bits.RotateLeft32 ((W ++ List.replicate (k + 1) 0).getD (W.length - 2) 0) (-17))
              ^^^ (bits.RotateLeft32 ((W ++ List.replicate (k + 1) 0).getD (W.length - 2) 0) (-19))
              ^^^ ((W ++ List.replicate (k + 1) 0).getD (W.length - 2) 0 >>> 10))
            ((W ++ List.replicate (k + 1) 0).getD (W.length - 7) 0))
            ((bits.RotateLeft32 ((W ++ List.replicate (k + 1) 0).getD (W.length - 15) 0) (-7))
              ^^^ (bits.RotateLeft32 ((W ++ List.replicate (k + 1) 0).getD (W.length - 15) 0) (-18))
              ^^^ ((W ++ List.replicate (k + 1) 0).getD (W.length - 15) 0 >>> 3)))
            ((W ++ List.replicate (k + 1) 0).getD (W.length - 16) 0)) := by
      rw [List.getD_append _ _ _ _ (by omega : W.length - 2 < W.length),
        List.getD_append _ _ _ _ (by omega : W.length - 7 < W.length),
        List.getD_append _ _ _ _ (by omega : W.length - 15 < W.length),
        List.getD_append _ _ _ _ (by omega : W.length - 16 < W.length),
        List.set_append_right _ _ (Nat.le_refl _), Nat.sub_self, List.replicate_succ,
        List.set_cons_zero]
      have r17 := RotateLeft32_neg (W.getD (W.length - 2) 0) 17 (by decide) (by decide)
      have r19 := RotateLeft32_neg (W.getD (W.length - 2) 0) 19 (by decide) (by decide)
      have r7 := RotateLeft32_neg (W.getD (W.length - 15) 0) 7 (by decide) (by decide)
      have r18 := RotateLeft32_neg (W.getD (W.length - 15) 0) 18 (by decide) (by decide)
      simp only [Nat.cast_ofNat] at r17 r19 r7 r18
      rw [r17, r19, r7, r18]
      unfold Spec.scheduleStep Spec.sigma0 Spec.sigma1 Spec.SHR Spec.plus add32
      simp only [List.append_assoc, List.singleton_append]
    have hlen : (Spec.scheduleStep W).length = W.length + 1 := by
      unfold Spec.scheduleStep; simp
    have := ih (Spec.scheduleStep W) (by omega)
    rw [hlen, hstep] at this
    exact this

theorem extendWords_eq (p : List UInt8) :
    extendWords (loadWords p) = Spec.schedule p := by
  rw [loadWords_eq]
  exact extend_aux 48 ((List.range 16).map (Spec.word p)) (by simp)

theorem step_eq (W : List Nat) (s : Vars) (t : Nat) :
    Spec.step W [s.a, s.b, s.c, s.d, s.e, s.f, s.g, s.h] t =
      [(sha256.round W s t).a, (sha256.round W s t).b, (sha256.round W s t).c, (sha256.round W s t).d,
       (sha256.round W s t).e, (sha256.round W s t).f, (sha256.round W s t).g, (sha256.round W s t).h] := by
  have r6 := RotateLeft32_neg s.e 6 (by decide) (by decide)
  have r11 := RotateLeft32_neg s.e 11 (by decide) (by decide)
  have r25 := RotateLeft32_neg s.e 25 (by decide) (by decide)
  have r2 := RotateLeft32_neg s.a 2 (by decide) (by decide)
  have r13 := RotateLeft32_neg s.a 13 (by decide) (by decide)
  have r22 := RotateLeft32_neg s.a 22 (by decide) (by decide)
  simp only [Nat.cast_ofNat] at r6 r11 r25 r2 r13 r22
  unfold sha256.round
  simp only [r6, r11, r25, r2, r13, r22, constants_eq.1]
  rfl

theorem foldl_step_eq (W : List Nat) (l : List Nat) : ∀ s : Vars,
    l.foldl (Spec.step W) [s.a, s.b, s.c, s.d, s.e, s.f, s.g, s.h] =
      [(l.foldl (sha256.round W) s).a, (l.foldl (sha256.round W) s).b, (l.foldl (sha256.round W) s).c,
       (l.foldl (sha256.round W) s).d, (l.foldl (sha256.round W) s).e, (l.foldl (sha256.round W) s).f,
       (l.foldl (sha256.round W) s).g, (l.foldl (sha256.round W) s).h] := by
  induction l with
  | nil => intro s; rfl
  | cons t l ih =>
    intro s
    rw [List.foldl_cons, List.foldl_cons, step_eq, ih]

/-- The loop body of `blockGeneric` is the hash computation of FIPS 180-4 on
one block. -/
theorem blockChunk_eq (hs : List Nat) (p : List UInt8) (h : hs.length = 8) :
    blockChunk hs p = Spec.compress hs p := by
  match hs, h with
  | [h0, h1, h2, h3, h4, h5, h6, h7], _ =>
    unfold blockChunk Spec.compress
    rw [extendWords_eq]
    have := foldl_step_eq (Spec.schedule p) (List.range 64) ⟨h0, h1, h2, h3, h4, h5, h6, h7⟩
    simp only at this
    rw [this]
    rfl

theorem foldl_blockChunk_eq (bs : List (List UInt8)) : ∀ hs : List Nat, hs.length = 8 →
    bs.foldl blockChunk hs = bs.foldl Spec.compress hs := by
  induction bs with
  | nil => intro hs _; rfl
  | cons b bs ih =>
    intro hs h
    rw [List.foldl_cons, List.foldl_cons, ← blockChunk_eq hs b h]
    exact ih _ rfl

theorem iterate_scheduleStep_length (k : Nat) : ∀ W : List Nat,
    (Nat.iterate Spec.scheduleStep k W).length = W.length + k := by
  induction k with
  | zero => intro W; rfl
  | succ k ih =>
    intro W
    rw [Function.iterate_succ_apply, ih]
    unfold Spec.scheduleStep
    simp only [List.length_append, List.length_singleton]
    omega

/-- Every index that `blockGeneric` and `hex.Encode` use is in range, so the
reads modelled with `getD` never take the default: the arrays `w` and `_K` have
64 entries and are read at `i < 64`, the hash value has 8 entries, a chunk is
read at `4 * i + 3 < 64` under the loop guard, and `hextable` has 16 entries
and is read at a nibble. -/
theorem index_in_range (p : List UInt8) (hs : List Nat) (v : UInt8) :
    (extendWords (loadWords p)).length = 64 ∧ _K.length = 64 ∧ init.length = 8 ∧
      (blockChunk hs p).length = 8 ∧
      v.toNat >>> 4 < hex.hextable.length ∧ v.toNat &&& 0x0f < hex.hextable.length := by
  have hv : ∀ n : Fin 256, n.val >>> 4 < hex.hextable.length ∧
      n.val &&& 0x0f < hex.hextable.length := by decide!
  refine ⟨?_, rfl, rfl, rfl, hv v.val⟩
  rw [extendWords_eq]
  unfold Spec.schedule
  rw [iterate_scheduleStep_length]
  simp

end Compression

/-! ## `blockGeneric` folds the compression over the 64-byte blocks -/

section Sha
open sha256

theorem getD_take_of_lt {α : Type} (p : List α) (n j : Nat) (d : α) (h : j < n) :
    (p.take n).getD j d = p.getD j d := by
  simp [List.getD_eq_getElem?_getD, List.getElem?_take, h]

theorem loadWords_take (p : List UInt8) : loadWords (p.take 64) = loadWords p := by
  unfold loadWords
  apply List.foldl_ext
  intro w i hi
  have hi : i < 16 := List.mem_range.mp hi
  simp only
  rw [getD_take_of_lt _ _ _ _ (by omega), getD_take_of_lt _ _ _ _ (by omega),
    getD_take_of_lt _ _ _ _ (by omega), getD_take_of_lt _ _ _ _ (by omega)]

theorem blockChunk_take (hs : List Nat) (p : List UInt8) :
    blockChunk hs (p.take 64) = blockChunk hs p := by
  unfold blockChunk
  rw [loadWords_take]

theorem parse_short (p : List UInt8) (h : p.length < 64) : Spec.parse p = [] := by
  unfold Spec.parse
  have : p.length / 64 = 0 := by omega
  rw [this]; rfl

theorem parse_cons (p : List UInt8) (h : 64 ≤ p.length) :
    Spec.parse p = p.take 64 :: Spec.parse (p.drop 64) := by
  unfold Spec.parse
  have : p.length / 64 = (p.drop 64).length / 64 + 1 := by
    rw [List.length_drop]; omega
  rw [this, List.range_succ_eq_map, List.map_cons, List.map_map]
  congr 1
  apply List.map_congr_left
  intro i _
  simp only [Function.comp, List.drop_drop]
  congr 2
  omega

theorem blockLoop_eq (n : Nat) : ∀ (hs : List Nat) (p : List UInt8), p.length / 64 = n →
    blockLoop n hs p = (Spec.parse p).foldl blockChunk hs := by
  induction n with
  | zero =>
    intro hs p h
    rw [parse_short p (by omega)]; rfl
  | succ n ih =>
    intro hs p h
    have hp : 64 ≤ p.length := by omega
    rw [parse_cons p hp, List.foldl_cons, blockChunk_take]
    unfold blockLoop
    rw [if_pos (by unfold chunk; omega)]
    apply ih
    rw [List.length_drop]; unfold chunk; omega

theorem blockGeneric_eq (hs : List Nat) (p : List UInt8) :
    blockGeneric hs p = (Spec.parse p).foldl blockChunk hs :=
  blockLoop_eq _ hs p rfl

theorem parse_append_aux (b : List UInt8) (k : Nat) : ∀ a : List UInt8, a.length = 64 * k →
    Spec.parse (a ++ b) = Spec.parse a ++ Spec.parse b := by
  induction k with
  | zero =>
    intro a h
    have : a = [] := List.length_eq_zero.mp (by omega)
    subst this
    rfl
  | succ k ih =>
    intro a h
    have ha : 64 ≤ a.length := by omega
    rw [parse_cons (a ++ b) (by rw [List.length_append]; omega), parse_cons a ha,
      List.take_append_of_le_length ha, List.drop_append_of_le_length ha,
      ih (a.drop 64) (by rw [List.length_drop]; omega)]
    rfl

theorem parse_append (a b : List UInt8) (h : a.length % 64 = 0) :
    Spec.parse (a ++ b) = Spec.parse a ++ Spec.parse b :=
  parse_append_aux b (a.length / 64) a (by omega)

theorem blockGeneric_append (hs : List Nat) (a b : List UInt8) (h : a.length % 64 = 0) :
    blockGeneric hs (a ++ b) = blockGeneric (blockGeneric hs a) b := by
  rw [blockGeneric_eq, blockGeneric_eq, blockGeneric_eq, parse_append a b h, List.foldl_append]

theorem blockGeneric_short (hs : List Nat) (p : List UInt8) (h : p.length < 64) :
    blockGeneric hs p = hs := by
  rw [blockGeneric_eq, parse_short p h]; rfl

end Sha

/-! ## `Write` maintains the streaming invariant -/

section Streaming
open sha256

theorem fill_spec (d : digest) (m p : List UInt8) (h : Absorbed d m) :
    ∃ m1, Absorbed (digest.Write.fill d p).1 m1 ∧ m1 ++ (digest.Write.fill d p).2 = m ++ p ∧
      ((digest.Write.fill d p).2 = [] ∨ (digest.Write.fill d p).1.nx = 0) ∧
      (digest.Write.fill d p).1.len = d.len := by
  obtain ⟨hx, hnx, a, hm, ha, hh⟩ := h
  unfold chunk at hx hnx ha
  unfold digest.Write.fill
  by_cases h0 : d.nx > 0
  · rw [if_pos h0]
    simp only [copyAt, chunk, hx]
    by_cases hfull : d.nx + min (64 - d.nx) p.length = 64
    · rw [if_pos hfull]
      have hn : min (64 - d.nx) p.length = 64 - d.nx := by omega
      have hle : 64 - d.nx ≤ p.length := by omega
      simp only [hn]
      have hd : d.x.drop (d.nx + (64 - d.nx)) = [] := by
        apply List.drop_eq_nil_of_le; omega
      rw [hd, List.append_nil]
      have hl1 : (d.x.take d.nx).length = d.nx := by rw [List.length_take]; omega
      have hl2 : (p.take (64 - d.nx)).length = 64 - d.nx := by rw [List.length_take]; omega
      refine ⟨m ++ p.take (64 - d.nx), ⟨?_, ?_, m ++ p.take (64 - d.nx), ?_, ?_, ?_⟩, ?_, by simp, trivial⟩
      · simp only [List.length_append, hl1, hl2, chunk]; omega
      · simp [chunk]
      · simp
      · rw [hm]; simp only [List.length_append, hl1, hl2, chunk]; omega
      · simp only
        rw [hh, hm, List.append_assoc]
        exact (blockGeneric_append _ _ _ ha).symm
      · simp
    · rw [if_neg hfull]
      have hn : min (64 - d.nx) p.length = p.length := by omega
      have hlt : d.nx + p.length < 64 := by omega
      simp only [hn, List.take_length, List.drop_length]
      have hl1 : (d.x.take d.nx).length = d.nx := by rw [List.length_take]; omega
      refine ⟨m ++ p, ⟨?_, ?_, a, ?_, ha, hh⟩, by simp, by simp, trivial⟩
      · simp only [List.length_append, hl1, List.length_drop, chunk]; omega
      · simpa [chunk] using hlt
      · simp only
        rw [hm, List.append_assoc]
        congr 1
        rw [List.take_append_of_le_length (by simp only [List.length_append, hl1]; omega)]
        rw [List.take_append_eq_append_take, hl1]
        simp [List.take_take, Nat.min_def]
  · rw [if_neg h0]
    exact ⟨m, ⟨hx, hnx, a, hm, ha, hh⟩, rfl, Or.inr (by show d.nx = 0; omega), rfl⟩

theorem blocks_spec (d : digest) (m p : List UInt8) (h : Absorbed d m)
    (hp : p = [] ∨ d.nx = 0) :
    ∃ m2, Absorbed (digest.Write.blocks d p).1 m2 ∧ m2 ++ (digest.Write.blocks d p).2 = m ++ p ∧
      (digest.Write.blocks d p).2.length < 64 ∧
      ((digest.Write.blocks d p).2 = [] ∨ (digest.Write.blocks d p).1.nx = 0) ∧
      (digest.Write.blocks d p).1.len = d.len := by
  obtain ⟨hx, hnx, a, hm, ha, hh⟩ := h
  unfold chunk at hx hnx ha
  unfold digest.Write.blocks
  by_cases hge : p.length ≥ chunk
  · rw [if_pos hge]
    unfold chunk at hge
    have hnx0 : d.nx = 0 := by
      rcases hp with hp | hp
      · subst hp; simp at hge
      · exact hp
    have hma : m = a := by rw [hm, hnx0]; simp
    have hl : (p.take (p.length - p.length % 64)).length = p.length - p.length % 64 := by
      rw [List.length_take]; omega
    refine ⟨m ++ p.take (p.length - p.length % chunk),
      ⟨hx, by simp [chunk, hnx0], m ++ p.take (p.length - p.length % chunk), ?_, ?_, ?_⟩,
      ?_, ?_, Or.inr hnx0, rfl⟩
    · simp [hnx0]
    · simp only [List.length_append, chunk, hl, hma]; omega
    · simp only
      rw [hh, hma]
      exact (blockGeneric_append _ _ _ ha).symm
    · simp
    · simp only [List.length_drop, chunk]; omega
  · rw [if_neg hge]
    unfold chunk at hge
    exact ⟨m, ⟨hx, hnx, a, hm, ha, hh⟩, rfl, by simpa using hge, hp, rfl⟩

theorem stash_spec (d : digest) (m p : List UInt8) (h : Absorbed d m)
    (hlt : p.length < 64) (hp : p = [] ∨ d.nx = 0) :
    Absorbed (digest.Write.stash d p) (m ++ p) ∧ (digest.Write.stash d p).len = d.len := by
  obtain ⟨hx, hnx, a, hm, ha, hh⟩ := h
  unfold chunk at hx hnx ha
  unfold digest.Write.stash
  by_cases hpos : p.length > 0
  · rw [if_pos hpos]
    have hnx0 : d.nx = 0 := by
      rcases hp with hp | hp
      · subst hp; simp at hpos
      · exact hp
    have hma : m = a := by rw [hm, hnx0]; simp
    have hn : min (d.x.length - 0) p.length = p.length := by omega
    simp only [copyAt, hn, List.take_zero, List.nil_append, List.take_length, Nat.zero_add]
    refine ⟨⟨?_, hlt, a, ?_, ha, hh⟩, trivial⟩
    · simp only [List.length_append, List.length_drop, chunk]; omega
    · simp [hma]
  · rw [if_neg hpos]
    have : p = [] := List.length_eq_zero.mp (by omega)
    subst this
    rw [List.append_nil]
    exact ⟨⟨hx, hnx, a, hm, ha, hh⟩, rfl⟩

/-- Writing `p` to a digest that has absorbed `m` gives one that has absorbed
`m ++ p`; the result `nn` is `len(p)` and the error is `nil`. -/
theorem Write_spec (d : digest) (m p : List UInt8) (h : Absorbed d m)
    (hlen : d.len = m.length % 2 ^ 64) :
    Absorbed (d.Write p).1 (m ++ p) ∧ (d.Write p).1.len = (m ++ p).length % 2 ^ 64 ∧
      (d.Write p).2 = (p.length, none) := by
  unfold digest.Write
  simp only
  have h0 : Absorbed { d with len := (d.len + p.length) % 2 ^ 64 } m := h
  obtain ⟨m1, h1, e1, c1, l1⟩ := fill_spec { d with len := (d.len + p.length) % 2 ^ 64 } m p h0
  obtain ⟨m2, h2, e2, lt2, c2, l2⟩ := blocks_spec _ m1 _ h1 c1
  obtain ⟨h3, l3⟩ := stash_spec _ m2 _ h2 lt2 c2
  rw [e2, e1] at h3
  refine ⟨h3, ?_, trivial⟩
  rw [l3, l2, l1, hlen, List.length_append]
  simp only
  omega

end Streaming

/-! ## `checkSum` pads as FIPS 180-4 and does not panic -/

section CheckSum
open sha256

theorem PutUint32_eq (v : Nat) : binary.PutUint32 v = Spec.bigEndian 4 v := by
  have e : Spec.bigEndian 4 v =
      [byte (v / 256 ^ 3), byte (v / 256 ^ 2), byte (v / 256 ^ 1), byte (v / 256 ^ 0)] := rfl
  rw [e]
  unfold binary.PutUint32
  simp only [Nat.shiftRight_eq_div_pow]
  norm_num

theorem byte_congr {a b : Nat} (h : a % 256 = b % 256) : byte a = byte b := by
  unfold byte; rw [h]

theorem PutUint64_length (L : Nat) :
    binary.PutUint64 (((L % 2 ^ 64) <<< 3) % 2 ^ 64) = Spec.bigEndian 8 (8 * L) := by
  have e : Spec.bigEndian 8 (8 * L) =
      [byte (8 * L / 256 ^ 7), byte (8 * L / 256 ^ 6), byte (8 * L / 256 ^ 5),
       byte (8 * L / 256 ^ 4), byte (8 * L / 256 ^ 3), byte (8 * L / 256 ^ 2),
       byte (8 * L / 256 ^ 1), byte (8 * L / 256 ^ 0)] := rfl
  rw [e]
  unfold binary.PutUint64
  simp only [Nat.shiftRight_eq_div_pow, Nat.shiftLeft_eq]
  have b7 : byte ((L % 2 ^ 64 * 2 ^ 3) % 2 ^ 64 / 2 ^ 56) = byte (8 * L / 256 ^ 7) :=
    byte_congr (by omega)
  have b6 : byte ((L % 2 ^ 64 * 2 ^ 3) % 2 ^ 64 / 2 ^ 48) = byte (8 * L / 256 ^ 6) :=
    byte_congr (by omega)
  have b5 : byte ((L % 2 ^ 64 * 2 ^ 3) % 2 ^ 64 / 2 ^ 40) = byte (8 * L / 256 ^ 5) :=
    byte_congr (by omega)
  have b4 : byte ((L % 2 ^ 64 * 2 ^ 3) % 2 ^ 64 / 2 ^ 32) = byte (8 * L / 256 ^ 4) :=
    byte_congr (by omega)
  have b3 : byte ((L % 2 ^ 64 * 2 ^ 3) % 2 ^ 64 / 2 ^ 24) = byte (8 * L / 256 ^ 3) :=
    byte_congr (by omega)
  have b2 : byte ((L % 2 ^ 64 * 2 ^ 3) % 2 ^ 64 / 2 ^ 16) = byte (8 * L / 256 ^ 2) :=
    byte_congr (by omega)
  have b1 : byte ((L % 2 ^ 64 * 2 ^ 3) % 2 ^ 64 / 2 ^ 8) = byte (8 * L / 256 ^ 1) :=
    byte_congr (by omega)
  have b0 : byte ((L % 2 ^ 64 * 2 ^ 3) % 2 ^ 64) = byte (8 * L / 256 ^ 0) :=
    byte_congr (by omega)
  rw [b7, b6, b5, b4, b3, b2, b1, b0]

theorem blockChunk_length (hs : List Nat) (p : List UInt8) : (blockChunk hs p).length = 8 := rfl

theorem foldl_blockChunk_length (bs : List (List UInt8)) :
    ∀ hs : List Nat, hs.length = 8 → (bs.foldl blockChunk hs).length = 8 := by
  induction bs with
  | nil => intro hs h; exact h
  | cons b bs ih => intro hs _; exact ih _ (blockChunk_length hs b)

theorem serialize_eq (H : List Nat) (h : H.length = 8) :
    binary.PutUint32 (H.getD 0 0) ++ binary.PutUint32 (H.getD 1 0)
      ++ binary.PutUint32 (H.getD 2 0) ++ binary.PutUint32 (H.getD 3 0)
      ++ binary.PutUint32 (H.getD 4 0) ++ binary.PutUint32 (H.getD 5 0)
      ++ binary.PutUint32 (H.getD 6 0) ++ binary.PutUint32 (H.getD 7 0)
      = H.flatMap (Spec.bigEndian 4) := by
  match H, h with
  | [h0, h1, h2, h3, h4, h5, h6, h7], _ =>
    simp only [PutUint32_eq, List.getD_cons_zero, List.getD_cons_succ, List.flatMap_cons,
      List.flatMap_nil, List.append_nil, List.append_assoc]

/-- The padding written by `checkSum` is the padding of FIPS 180-4. -/
theorem padlen_eq (L : Nat) :
    ((0x80 : UInt8) :: List.replicate (64 + 8 - 1) 0).take
        (if L % 2 ^ 64 % 64 < 56 then 56 - L % 2 ^ 64 % 64 else 64 + 56 - L % 2 ^ 64 % 64)
      = [0x80] ++ List.replicate ((119 - L % 64) % 64) 0 := by
  have hr : L % 2 ^ 64 % 64 = L % 64 := by omega
  rw [hr]
  by_cases c : L % 64 < 56
  · rw [if_pos c]
    obtain ⟨t, ht⟩ : ∃ t, 56 - L % 64 = t + 1 := ⟨55 - L % 64, by omega⟩
    rw [ht, List.take_succ_cons, List.take_replicate]
    have : min t (64 + 8 - 1) = (119 - L % 64) % 64 := by omega
    rw [this]; rfl
  · rw [if_neg c]
    obtain ⟨t, ht⟩ : ∃ t, 64 + 56 - L % 64 = t + 1 := ⟨119 - L % 64, by omega⟩
    rw [ht, List.take_succ_cons, List.take_replicate]
    have : min t (64 + 8 - 1) = (119 - L % 64) % 64 := by omega
    rw [this]; rfl

theorem pad_length (m : List UInt8) : (Spec.pad m).length % 64 = 0 := by
  unfold Spec.pad Spec.bigEndian
  simp only [List.length_append, List.length_replicate, List.length_map, List.length_range,
    List.length_singleton]
  omega

/-- The checksum of a digest that has absorbed `m` is the SHA-256 digest of `m`;
the panic of `checkSum` is not reached. -/
theorem checkSum_spec (d : digest) (m : List UInt8) (h : Absorbed d m)
    (hlen : d.len = m.length % 2 ^ 64) :
    d.checkSum = Except.ok (Spec.SHA256 m) := by
  unfold digest.checkSum
  simp only
  rw [hlen, padlen_eq, PutUint64_length]
  have hpad : m ++ ([0x80] ++ List.replicate ((119 - m.length % 64) % 64) 0
      ++ Spec.bigEndian 8 (8 * m.length)) = Spec.pad m := by
    unfold Spec.pad; simp only [List.append_assoc]
  obtain ⟨⟨hx, hnx, a, hm, ha, hh⟩, -, -⟩ := Write_spec d m
    ([0x80] ++ List.replicate ((119 - m.length % 64) % 64) 0
      ++ Spec.bigEndian 8 (8 * m.length)) h hlen
  rw [hpad] at hm
  unfold chunk at hx hnx ha
  have hl := congrArg List.length hm
  rw [List.length_append, List.length_take] at hl
  have hpl := pad_length m
  have hnx0 : (d.Write ([0x80] ++ List.replicate ((119 - m.length % 64) % 64) 0
      ++ Spec.bigEndian 8 (8 * m.length))).1.nx = 0 := by omega
  rw [hnx0, List.take_zero, List.append_nil] at hm
  rw [if_neg (by rw [hnx0]; exact fun c => c rfl)]
  rw [serialize_eq _ (by rw [hh, blockGeneric_eq]; exact foldl_blockChunk_length _ _ rfl)]
  rw [hh, ← hm, blockGeneric_eq, foldl_blockChunk_eq _ init rfl, constants_eq.2]
  rfl

end CheckSum

/-! ## `calculateHash` in closed form -/

section Hasher
open sha256

theorem New_absorbed : Absorbed New [] ∧ New.len = ([] : List UInt8).length % 2 ^ 64 :=
  ⟨⟨rfl, by decide, [], rfl, rfl, by rw [blockGeneric_short _ _ (by decide)]; rfl⟩, rfl⟩

/-- Writing a message to a new digest and summing it appends the SHA-256 digest
of the message. -/
theorem Sum_Write_New (m inp : List UInt8) :
    (New.Write m).1.Sum inp = Except.ok (inp ++ Spec.SHA256 m) := by
  obtain ⟨h, hl, -⟩ := Write_spec New [] m New_absorbed.1 New_absorbed.2
  rw [List.nil_append] at h hl
  unfold digest.Sum
  simp only
  rw [checkSum_spec _ m h hl]
  rfl

theorem hex_byte : ∀ n : Fin 256,
    [hex.hextable.getD (n.val >>> 4) 0, hex.hextable.getD (n.val &&& 0x0f) 0]
      = [Spec.hexDigit (n.val / 16), Spec.hexDigit (n.val % 16)] := by
  decide!

theorem hexDigit_isLowerHexChar : ∀ n : Fin 16, Spec.isLowerHexChar (Spec.hexDigit n.val) := by
  decide!

/-- The table lookup of `hex.Encode` produces lowercase hexadecimal text. -/
theorem Encode_eq (src : List UInt8) : hex.EncodeToString src = Spec.hexLower src := by
  unfold hex.EncodeToString hex.Encode Spec.hexLower
  congr 1
  funext v
  exact hex_byte v.val

theorem hexLower_length (bs : List UInt8) : (Spec.hexLower bs).length = 2 * bs.length := by
  induction bs with
  | nil => rfl
  | cons b bs ih =>
    unfold Spec.hexLower at ih ⊢
    rw [List.flatMap_cons, List.length_append, ih]
    simp only [List.length_cons, List.length_nil]
    omega

theorem hexLower_chars (bs : List UInt8) : ∀ c ∈ Spec.hexLower bs, Spec.isLowerHexChar c := by
  intro c hc
  unfold Spec.hexLower at hc
  rw [List.mem_flatMap] at hc
  obtain ⟨v, -, hv⟩ := hc
  have hv256 : v.toNat < 256 := v.val.isLt
  have h1 := hexDigit_isLowerHexChar ⟨v.toNat / 16, by omega⟩
  have h2 := hexDigit_isLowerHexChar ⟨v.toNat % 16, by omega⟩
  simp only [List.mem_cons, List.mem_singleton, List.not_mem_nil, or_false] at hv
  rcases hv with rfl | rfl
  · exact h1
  · exact h2

theorem bigEndian_length (n v : Nat) : (Spec.bigEndian n v).length = n := by
  unfold Spec.bigEndian; simp

theorem SHA256_length (m : List UInt8) : (Spec.SHA256 m).length = 32 := by
  unfold Spec.SHA256
  have h := foldl_blockChunk_length (Spec.parse (Spec.pad m)) init rfl
  rw [foldl_blockChunk_eq _ init rfl, constants_eq.2] at h
  match (Spec.parse (Spec.pad m)).foldl Spec.compress Spec.H0, h with
  | [h0, h1, h2, h3, h4, h5, h6, h7], _ =>
    simp only [List.flatMap_cons, List.flatMap_nil, List.length_append, bigEndian_length,
      List.length_nil]

/-- What `calculateHash` computes: it does not panic, returns the lowercase
hexadecimal SHA-256 digest of `record`, and leaves its parameter and the
package variables as they were. -/
theorem calculateHash_eq (block : Block) (g : Globals) :
    calculateHash block g = Except.ok
      { ret := Spec.hexLower (Spec.SHA256 (calculateHash.record block)),
        block := block, globals := g } := by
  unfold calculateHash
  simp only [Sum_Write_New, List.nil_append, Encode_eq]

theorem ret_calculateHash (block : Block) (g : Globals) :
    Except.map Outcome.ret (calculateHash block g)
      = Except.ok (Spec.hexLower (Spec.SHA256 (calculateHash.record block))) := by
  rw [calculateHash_eq]; rfl

theorem hexDigit_inj : ∀ a b : Fin 16, Spec.hexDigit a.val = Spec.hexDigit b.val → a = b := by
  decide!

theorem hexLower_cons (v : UInt8) (bs : List UInt8) :
    Spec.hexLower (v :: bs) =
      Spec.hexDigit (v.toNat / 16) :: Spec.hexDigit (v.toNat % 16) :: Spec.hexLower bs := rfl

/-- Lowercase hexadecimal text determines the bytes it encodes. -/
theorem hexLower_injective : ∀ bs1 bs2 : List UInt8,
    Spec.hexLower bs1 = Spec.hexLower bs2 → bs1 = bs2 := by
  intro bs1
  induction bs1 with
  | nil =>
    intro bs2 h
    cases bs2 with
    | nil => rfl
    | cons w bs2 => rw [hexLower_cons] at h; cases h
  | cons v bs1 ih =>
    intro bs2 h
    cases bs2 with
    | nil => rw [hexLower_cons] at h; cases h
    | cons w bs2 =>
      rw [hexLower_cons, hexLower_cons] at h
      have hhi := List.head_eq_of_cons_eq h
      have h2 := List.tail_eq_of_cons_eq h
      have hlo := List.head_eq_of_cons_eq h2
      have htl := List.tail_eq_of_cons_eq h2
      have hv : v.toNat < 256 := v.val.isLt
      have hw : w.toNat < 256 := w.val.isLt
      have e1 := congrArg Fin.val
        (hexDigit_inj ⟨v.toNat / 16, by omega⟩ ⟨w.toNat / 16, by omega⟩ hhi)
      have e2 := congrArg Fin.val
        (hexDigit_inj ⟨v.toNat % 16, by omega⟩ ⟨w.toNat % 16, by omega⟩ hlo)
      simp only at e1 e2
      have evw : v = w := UInt8.toNat.inj (by omega)
      rw [evw, ih bs2 htl]

end Hasher

/-! ## The checked code does not panic and computes the same values -/

section CheckedBasics

theorem ok_bind {α β : Type} (a : α) (f : α → Except String β) :
    (Except.ok a >>= f) = f a := rfl

theorem pure_eq_ok {α : Type} (a : α) : (pure a : Except String α) = Except.ok a := rfl

theorem index_ok {α : Type} (xs : List α) (i : Nat) (d : α) (h : i < xs.length) :
    Checked.index xs i = Except.ok (xs.getD i d) := by
  unfold Checked.index
  rw [List.getD_eq_getElem?_getD, List.getElem?_eq_getElem h]
  rfl

theorem setIndex_ok {α : Type} (xs : List α) (i : Nat) (x : α) (h : i < xs.length) :
    Checked.setIndex xs i x = Except.ok (xs.set i x) := by
  unfold Checked.setIndex
  rw [if_pos h]

theorem slice_ok {α : Type} (xs : List α) (lo hi : Nat) (h1 : lo ≤ hi) (h2 : hi ≤ xs.length) :
    Checked.slice xs lo hi = Except.ok ((xs.take hi).drop lo) := by
  unfold Checked.slice
  rw [if_pos ⟨h1, h2⟩]

theorem slice_from_ok {α : Type} (xs : List α) (lo : Nat) (h : lo ≤ xs.length) :
    Checked.slice xs lo xs.length = Except.ok (xs.drop lo) := by
  rw [slice_ok xs lo xs.length h (Nat.le_refl _), List.take_length]

theorem slice_to_ok {α : Type} (xs : List α) (hi : Nat) (h : hi ≤ xs.length) :
    Checked.slice xs 0 hi = Except.ok (xs.take hi) := by
  rw [slice_ok xs 0 hi (Nat.zero_le _) h, List.drop_zero]

/-- A checked loop whose every step succeeds with the value of the unchecked
step, while an invariant holds, succeeds with the value of the unchecked loop. -/
theorem foldlM_ok {α β : Type} (f : β → α → Except String β) (g : β → α → β) (P : β → Prop)
    (l : List α) (hstep : ∀ b a, a ∈ l → P b → f b a = Except.ok (g b a) ∧ P (g b a)) :
    ∀ b, P b → l.foldlM f b = Except.ok (l.foldl g b) ∧ P (l.foldl g b) := by
  induction l with
  | nil => intro b hb; exact ⟨rfl, hb⟩
  | cons a l ih =>
    intro b hb
    obtain ⟨e, hP⟩ := hstep b a (List.mem_cons_self a l) hb
    rw [List.foldlM_cons, e, ok_bind, List.foldl_cons]
    exact ih (fun b' a' ha' hb' => hstep b' a' (List.mem_cons_of_mem a ha') hb') _ hP

end CheckedBasics

section CheckedConversion
open runtime

theorem encoderune_checked (r : Int) :
    (Checked.runtime.encoderune (List.replicate 4 0) r >>= fun q => Checked.slice q.1 0 q.2)
      = Except.ok (encoderune r) := by
  unfold Checked.runtime.encoderune encoderune
  simp only
  split
  · rfl
  · split
    · rfl
    · split
      · rfl
      · split
        · rfl
        · rfl

/-- The checked conversion `string(v)` does not panic and gives the value of
`intstring`. -/
theorem intstring_checked (v : Int) :
    Checked.runtime.intstring v = Except.ok (intstring v) := by
  unfold Checked.runtime.intstring intstring
  exact encoderune_checked _

end CheckedConversion

section CheckedHex

theorem hextable_length : hex.hextable.length = 16 := by decide

theorem Encode_checked_aux (src : List UInt8) : ∀ (pre post : List UInt8),
    post.length = 2 * src.length →
    src.foldlM
      (fun (acc : List UInt8 × Nat) v => do
        let c ← Checked.index hex.hextable (v.toNat >>> 4)
        let dst ← Checked.setIndex acc.1 acc.2 c
        let c ← Checked.index hex.hextable (v.toNat &&& 0x0f)
        let dst ← Checked.setIndex dst (acc.2 + 1) c
        pure (dst, acc.2 + 2))
      (pre ++ post, pre.length)
    = Except.ok (pre ++ hex.Encode src, pre.length + 2 * src.length) := by
  induction src with
  | nil =>
    intro pre post h
    have : post = [] := List.length_eq_zero.mp (by simpa using h)
    subst this
    rfl
  | cons v src ih =>
    intro pre post h
    match post, h with
    | a :: b :: post, h =>
      have hv : v.toNat < 256 := v.val.isLt
      have h1 : v.toNat >>> 4 < hex.hextable.length := by
        rw [hextable_length, Nat.shiftRight_eq_div_pow]; omega
      have h2 : v.toNat &&& 0x0f < hex.hextable.length := by
        rw [hextable_length, Nat.and_pow_two_sub_one_eq_mod _ 4]; omega
      have hp : post.length = 2 * src.length := by
        simp only [List.length_cons] at h; omega
      rw [List.foldlM_cons]
      simp only
      rw [index_ok _ _ 0 h1, ok_bind, setIndex_ok _ _ _ (by simp), ok_bind,
        index_ok _ _ 0 h2, ok_bind, setIndex_ok _ _ _ (by simp), ok_bind, pure_eq_ok, ok_bind]
      have e : ((pre ++ a :: b :: post).set pre.length (hex.hextable.getD (v.toNat >>> 4) 0)).set
          (pre.length + 1) (hex.hextable.getD (v.toNat &&& 0x0f) 0)
          = (pre ++ [hex.hextable.getD (v.toNat >>> 4) 0, hex.hextable.getD (v.toNat &&& 0x0f) 0])
            ++ post := by
        rw [List.set_append_right _ _ (Nat.le_refl _), Nat.sub_self, List.set_cons_zero,
          List.set_append_right _ _ (by omega)]
        have : pre.length + 1 - pre.length = 1 := by omega
        rw [this]
        simp
      have el : pre.length + 2 = (pre ++ [hex.hextable.getD (v.toNat >>> 4) 0,
          hex.hextable.getD (v.toNat &&& 0x0f) 0]).length := by simp
      rw [e, el, ih _ post hp]
      congr 2
      · unfold hex.Encode
        rw [List.flatMap_cons]
        simp
      · simp only [List.length_append, List.length_cons, List.length_nil]; omega

/-- The checked `hex.EncodeToString` does not panic and gives the value of
`hex.EncodeToString`. -/
theorem EncodeToString_checked (src : List UInt8) (h : src.length * 2 < 2 ^ 63) :
    Checked.hex.EncodeToString src = Except.ok (hex.EncodeToString src) := by
  unfold Checked.hex.EncodeToString Checked.make Checked.hex.Encode
  rw [if_pos h, ok_bind]
  have := Encode_checked_aux src [] (List.replicate (src.length * 2) 0) (by simp; omega)
  simp only [List.nil_append, List.length_nil] at this
  rw [this]
  rfl

end CheckedHex

section CheckedBinary

theorem PutUint32_checked (b : List UInt8) (v : Nat) (h : 4 ≤ b.length) :
    Checked.binary.PutUint32 b v = Except.ok (binary.PutUint32 v ++ b.drop 4) := by
  match b, h with
  | b0 :: b1 :: b2 :: b3 :: rest, _ =>
    unfold Checked.binary.PutUint32
    rw [index_ok _ _ 0 (by simp), ok_bind, setIndex_ok _ _ _ (by simp), ok_bind,
      setIndex_ok _ _ _ (by simp), ok_bind, setIndex_ok _ _ _ (by simp), ok_bind,
      setIndex_ok _ _ _ (by simp)]
    rfl

theorem PutUint64_checked (b : List UInt8) (v : Nat) (h : 8 ≤ b.length) :
    Checked.binary.PutUint64 b v = Except.ok (binary.PutUint64 v ++ b.drop 8) := by
  match b, h with
  | b0 :: b1 :: b2 :: b3 :: b4 :: b5 :: b6 :: b7 :: rest, _ =>
    unfold Checked.binary.PutUint64
    rw [index_ok _ _ 0 (by simp), ok_bind, setIndex_ok _ _ _ (by simp), ok_bind,
      setIndex_ok _ _ _ (by simp), ok_bind, setIndex_ok _ _ _ (by simp), ok_bind,
      setIndex_ok _ _ _ (by simp), ok_bind, setIndex_ok _ _ _ (by simp), ok_bind,
      setIndex_ok _ _ _ (by simp), ok_bind, setIndex_ok _ _ _ (by simp), ok_bind,
      setIndex_ok _ _ _ (by simp)]
    rfl

end CheckedBinary

section CheckedBlock
open sha256

theorem loadWords_checked (p : List UInt8) (hp : 64 ≤ p.length) :
    Checked.sha256.loadWords p = Except.ok (loadWords p) ∧ (loadWords p).length = 64 := by
  unfold Checked.sha256.loadWords loadWords
  refine foldlM_ok _ _ (fun w : List Nat => w.length = 64) (List.range 16) ?_ _ ?_
  · intro w i hi hw
    have hi : i < 16 := List.mem_range.mp hi
    simp only
    rw [index_ok _ _ 0 (by omega : i * 4 < p.length), ok_bind,
      index_ok _ _ 0 (by omega : i * 4 + 1 < p.length), ok_bind,
      index_ok _ _ 0 (by omega : i * 4 + 2 < p.length), ok_bind,
      index_ok _ _ 0 (by omega : i * 4 + 3 < p.length), ok_bind,
      setIndex_ok _ _ _ (by omega : i < w.length)]
    exact ⟨rfl, by rw [List.length_set]; exact hw⟩
  · simp

theorem extendWords_checked (w : List Nat) (hw : w.length = 64) :
    Checked.sha256.extendWords w = Except.ok (extendWords w) ∧ (extendWords w).length = 64 := by
  unfold Checked.sha256.extendWords extendWords
  refine foldlM_ok _ _ (fun w : List Nat => w.length = 64) (List.range' 16 48) ?_ _ ?_
  · intro w i hi hw
    have hi := List.mem_range'_1.mp hi
    simp only
    rw [index_ok _ _ 0 (by omega : i - 2 < w.length), ok_bind,
      index_ok _ _ 0 (by omega : i - 15 < w.length), ok_bind,
      index_ok _ _ 0 (by omega : i - 7 < w.length), ok_bind,
      index_ok _ _ 0 (by omega : i - 16 < w.length), ok_bind,
      setIndex_ok _ _ _ (by omega : i < w.length)]
    exact ⟨rfl, by rw [List.length_set]; exact hw⟩
  · exact hw

theorem round_checked (w : List Nat) (hw : w.length = 64) (s : Vars) (i : Nat) (hi : i < 64) :
    Checked.sha256.round w s i = Except.ok (sha256.round w s i) := by
  unfold Checked.sha256.round sha256.round
  rw [index_ok _ _ 0 (by rw [show _K.length = 64 from rfl]; exact hi), ok_bind,
    index_ok _ _ 0 (by omega : i < w.length), ok_bind]
  rfl

/-- One checked iteration of `blockGeneric` on a chunk of at least 64 bytes does
not panic and gives the value of `blockChunk`. -/
theorem blockChunk_checked (hs : List Nat) (h8 : hs.length = 8) (p : List UInt8)
    (hp : 64 ≤ p.length) :
    Checked.sha256.blockChunk hs p = Except.ok (blockChunk hs p) := by
  obtain ⟨e1, l1⟩ := loadWords_checked p hp
  obtain ⟨e2, l2⟩ := extendWords_checked (loadWords p) l1
  have e3 := (foldlM_ok (Checked.sha256.round (extendWords (loadWords p)))
    (sha256.round (extendWords (loadWords p))) (fun _ => True) (List.range 64)
    (fun s i hi _ => ⟨round_checked _ l2 s i (List.mem_range.mp hi), trivial⟩)
    { a := hs.getD 0 0, b := hs.getD 1 0, c := hs.getD 2 0, d := hs.getD 3 0,
      e := hs.getD 4 0, f := hs.getD 5 0, g := hs.getD 6 0, h := hs.getD 7 0 } trivial).1
  unfold Checked.sha256.blockChunk
  rw [index_ok hs 0 0 (by omega), ok_bind, index_ok hs 1 0 (by omega), ok_bind,
    index_ok hs 2 0 (by omega), ok_bind, index_ok hs 3 0 (by omega), ok_bind,
    index_ok hs 4 0 (by omega), ok_bind, index_ok hs 5 0 (by omega), ok_bind,
    index_ok hs 6 0 (by omega), ok_bind, index_ok hs 7 0 (by omega), ok_bind,
    e1, ok_bind, e2, ok_bind]
  simp only
  rw [e3, ok_bind]
  rfl

theorem blockLoop_checked (n : Nat) : ∀ (hs : List Nat) (p : List UInt8), hs.length = 8 →
    Checked.sha256.blockLoop n hs p = Except.ok (blockLoop n hs p) := by
  induction n with
  | zero => intro hs p _; rfl
  | succ n ih =>
    intro hs p h8
    unfold Checked.sha256.blockLoop blockLoop
    by_cases hp : p.length ≥ chunk
    · rw [if_pos hp, if_pos hp, blockChunk_checked hs h8 p hp, ok_bind,
        slice_from_ok p chunk hp, ok_bind]
      exact ih _ _ rfl
    · rw [if_neg hp, if_neg hp]
      rfl

/-- The checked `blockGeneric` does not panic and gives the value of
`blockGeneric`. -/
theorem blockGeneric_checked (hs : List Nat) (p : List UInt8) (h8 : hs.length = 8) :
    Checked.sha256.blockGeneric hs p = Except.ok (blockGeneric hs p) :=
  blockLoop_checked _ hs p h8

end CheckedBlock

section CheckedWrite
open sha256

theorem copy_view (x p : List UInt8) (nx : Nat) :
    (x.take nx ++ (Checked.copy (x.drop nx) p).1, (Checked.copy (x.drop nx) p).2)
      = copyAt x nx p := by
  unfold Checked.copy copyAt
  simp only [List.length_drop, List.drop_drop, List.append_assoc]

theorem fill_checked (d : digest) (p : List UInt8) (hx : d.x.length = 64) (hnx : d.nx < 64)
    (h8 : d.h.length = 8) :
    Checked.sha256.fill d p = Except.ok (digest.Write.fill d p) := by
  unfold Checked.sha256.fill digest.Write.fill
  by_cases h0 : d.nx > 0
  · rw [if_pos h0, if_pos h0, slice_from_ok _ _ (by omega), ok_bind]
    have hc := copy_view d.x p d.nx
    have hn : (Checked.copy (d.x.drop d.nx) p).2 ≤ p.length := by
      unfold Checked.copy; simp only; omega
    have hx2 : (d.x.take d.nx ++ (Checked.copy (d.x.drop d.nx) p).1).length = 64 := by
      unfold Checked.copy
      simp only [List.length_append, List.length_take, List.length_drop]
      omega
    simp only [← hc]
    by_cases hfull : d.nx + (Checked.copy (d.x.drop d.nx) p).2 = chunk
    · rw [if_pos hfull, if_pos hfull]
      rw [slice_to_ok _ _ (Nat.le_refl _), ok_bind, List.take_length,
        blockGeneric_checked _ _ h8, ok_bind, pure_eq_ok, ok_bind,
        slice_from_ok _ _ hn, ok_bind]
      rfl
    · rw [if_neg hfull, if_neg hfull]
      rw [pure_eq_ok, ok_bind, slice_from_ok _ _ hn, ok_bind]
      rfl
  · rw [if_neg h0, if_neg h0]
    rfl

theorem blocks_checked (d : digest) (p : List UInt8) (h8 : d.h.length = 8) :
    Checked.sha256.blocks d p = Except.ok (digest.Write.blocks d p) := by
  unfold Checked.sha256.blocks digest.Write.blocks
  by_cases hp : p.length ≥ chunk
  · rw [if_pos hp, if_pos hp]
    simp only
    rw [slice_to_ok _ _ (Nat.sub_le _ _), ok_bind, blockGeneric_checked _ _ h8, ok_bind,
      slice_from_ok _ _ (Nat.sub_le _ _), ok_bind]
    rfl
  · rw [if_neg hp, if_neg hp]
    rfl

theorem stash_checked (d : digest) (p : List UInt8) :
    Checked.sha256.stash d p = Except.ok (digest.Write.stash d p) := by
  unfold Checked.sha256.stash digest.Write.stash
  by_cases hp : p.length > 0
  · rw [if_pos hp, if_pos hp, slice_to_ok _ _ (Nat.le_refl _), ok_bind, List.take_length]
    have hc := copy_view d.x p 0
    simp only [List.take_zero, List.nil_append, List.drop_zero] at hc
    simp only [← hc]
    rfl
  · rw [if_neg hp, if_neg hp]
    rfl

end CheckedWrite

section CheckedHasher
open sha256

theorem Absorbed_h_length (d : digest) (m : List UInt8) (h : Absorbed d m) : d.h.length = 8 := by
  obtain ⟨-, -, a, -, -, hh⟩ := h
  rw [hh, blockGeneric_eq]
  exact foldl_blockChunk_length _ init rfl

/-- The checked `Write` on a digest that has absorbed a message does not panic
and gives the value of `Write`. -/
theorem Write_checked (d : digest) (m p : List UInt8) (h : Absorbed d m) :
    Checked.sha256.Write d p = Except.ok (d.Write p) := by
  have h0 : Absorbed { d with len := (d.len + p.length) % 2 ^ 64 } m := h
  obtain ⟨m1, h1, -, c1, -⟩ := fill_spec { d with len := (d.len + p.length) % 2 ^ 64 } m p h0
  unfold Checked.sha256.Write
  simp only
  rw [fill_checked _ p h0.1 h0.2.1 (Absorbed_h_length _ m h0), ok_bind,
    blocks_checked _ _ (Absorbed_h_length _ m1 h1), ok_bind, stash_checked, ok_bind]
  rfl

theorem tmp_checked :
    Checked.setIndex (List.replicate (64 + 8) (0 : UInt8)) 0 0x80
      = Except.ok ((0x80 : UInt8) :: List.replicate (64 + 8 - 1) 0) := rfl

theorem padlen_value (t len : Nat) (ht : t ≤ 64) :
    (((0x80 : UInt8) :: List.replicate (64 + 8 - 1) 0).take (t + 8)).take (t + 0)
      ++ (binary.PutUint64 len
        ++ ((((0x80 : UInt8) :: List.replicate (64 + 8 - 1) 0).take (t + 8)).drop (t + 0)).drop 8)
    = ((0x80 : UInt8) :: List.replicate (64 + 8 - 1) 0).take t ++ binary.PutUint64 len := by
  have hl : ((0x80 : UInt8) :: List.replicate (64 + 8 - 1) 0).length = 72 := by simp
  have hl2 : (((0x80 : UInt8) :: List.replicate (64 + 8 - 1) 0).take (t + 8)).length = t + 8 := by
    rw [List.length_take, hl]; omega
  have hd : ((((0x80 : UInt8) :: List.replicate (64 + 8 - 1) 0).take (t + 8)).drop (t + 0)).drop 8
      = [] := by
    apply List.drop_eq_nil_of_le
    rw [List.length_drop, hl2]; omega
  rw [hd, List.append_nil, List.take_take]
  have : min (t + 0) (t + 8) = t := by omega
  rw [this]

theorem digest_fold (H : List Nat) (k : Nat) (hk : k ≤ 8) :
    (List.range k).foldl
      (fun (digest : List UInt8) j =>
        digest.take (4 * j) ++ (binary.PutUint32 (H.getD j 0) ++ (digest.drop (4 * j)).drop 4))
      (List.replicate Size 0)
    = (List.range k).flatMap (fun j => binary.PutUint32 (H.getD j 0))
        ++ List.replicate (32 - 4 * k) 0 := by
  induction k with
  | zero => rfl
  | succ k ih =>
    have hA : ((List.range k).flatMap (fun j => binary.PutUint32 (H.getD j 0))).length = 4 * k := by
      clear ih
      induction k with
      | zero => rfl
      | succ k ih2 =>
        rw [List.range_succ, List.flatMap_append, List.length_append, ih2 (by omega)]
        simp [binary.PutUint32]
        omega
    rw [List.range_succ, List.foldl_append, ih (by omega), List.foldl_cons, List.foldl_nil,
      List.flatMap_append, List.take_left' hA, List.drop_left' hA, List.drop_replicate,
      List.flatMap_cons, List.flatMap_nil, List.append_nil, List.append_assoc]
    congr 3

theorem digest_checked (H : List Nat) (h8 : H.length = 8) :
    (List.range 8).foldlM
      (fun (digest : List UInt8) k => do
        let view ← Checked.slice digest (4 * k) digest.length
        let hk ← Checked.index H k
        let view ← Checked.binary.PutUint32 view hk
        pure (digest.take (4 * k) ++ view))
      (List.replicate Size 0)
    = Except.ok (binary.PutUint32 (H.getD 0 0) ++ binary.PutUint32 (H.getD 1 0)
      ++ binary.PutUint32 (H.getD 2 0) ++ binary.PutUint32 (H.getD 3 0)
      ++ binary.PutUint32 (H.getD 4 0) ++ binary.PutUint32 (H.getD 5 0)
      ++ binary.PutUint32 (H.getD 6 0) ++ binary.PutUint32 (H.getD 7 0)) := by
  have hf := (foldlM_ok
    (fun (digest : List UInt8) k => do
        let view ← Checked.slice digest (4 * k) digest.length
        let hk ← Checked.index H k
        let view ← Checked.binary.PutUint32 view hk
        pure (digest.take (4 * k) ++ view))
    (fun (digest : List UInt8) j =>
        digest.take (4 * j) ++ (binary.PutUint32 (H.getD j 0) ++ (digest.drop (4 * j)).drop 4))
    (fun digest : List UInt8 => digest.length = 32) (List.range 8)
    (by
      intro digest k hk hd
      have hk : k < 8 := List.mem_range.mp hk
      simp only
      rw [slice_from_ok _ _ (by omega), ok_bind, index_ok H k 0 (by omega), ok_bind,
        PutUint32_checked _ _ (by rw [List.length_drop]; omega), ok_bind]
      refine ⟨rfl, ?_⟩
      simp only [List.length_append, List.length_take, List.length_drop, binary.PutUint32,
        List.length_cons, List.length_nil]
      omega)
    (List.replicate Size 0) (by simp [Size])).1
  rw [hf, digest_fold H 8 (Nat.le_refl _)]
  simp [List.range, List.range.loop]

/-- The checked `checkSum` on a digest that has absorbed a message does not
panic, whether by a slice, an index or the explicit `panic`, and gives the
value of `checkSum`. -/
theorem checkSum_checked (d : digest) (m : List UInt8) (h : Absorbed d m)
    (hlen : d.len = m.length % 2 ^ 64) :
    Checked.sha256.checkSum d = d.checkSum := by
  have ht : (if d.len % 64 < 56 then (56 + 2 ^ 64 - d.len % 64) % 2 ^ 64
      else (64 + 56 + 2 ^ 64 - d.len % 64) % 2 ^ 64)
      = (if d.len % 64 < 56 then 56 - d.len % 64 else 64 + 56 - d.len % 64) := by
    split <;> omega
  have ht64 : (if d.len % 64 < 56 then 56 - d.len % 64 else 64 + 56 - d.len % 64) ≤ 64 := by
    split <;> omega
  have hw := Write_checked d m
    (((0x80 : UInt8) :: List.replicate (64 + 8 - 1) 0).take
      (if d.len % 64 < 56 then 56 - d.len % 64 else 64 + 56 - d.len % 64)
      ++ binary.PutUint64 ((d.len <<< 3) % 2 ^ 64)) h
  obtain ⟨ha, -, -⟩ := Write_spec d m
    (((0x80 : UInt8) :: List.replicate (64 + 8 - 1) 0).take
      (if d.len % 64 < 56 then 56 - d.len % 64 else 64 + 56 - d.len % 64)
      ++ binary.PutUint64 ((d.len <<< 3) % 2 ^ 64)) h hlen
  have hd := digest_checked _ (Absorbed_h_length _ _ ha)
  have hl : ((0x80 : UInt8) :: List.replicate (64 + 8 - 1) 0).length = 72 := by simp
  have hl2 : (((0x80 : UInt8) :: List.replicate (64 + 8 - 1) 0).take
      ((if d.len % 64 < 56 then 56 - d.len % 64 else 64 + 56 - d.len % 64) + 8)).length
      = (if d.len % 64 < 56 then 56 - d.len % 64 else 64 + 56 - d.len % 64) + 8 := by
    rw [List.length_take, hl]; omega
  unfold Checked.sha256.checkSum digest.checkSum
  simp only [ht]
  rw [tmp_checked, ok_bind, slice_to_ok _ _ (by rw [hl]; omega), ok_bind,
    slice_from_ok _ _ (by rw [hl2]; omega), ok_bind,
    PutUint64_checked _ _ (by rw [List.length_drop, hl2]; omega), ok_bind,
    padlen_value _ _ ht64, hw, ok_bind]
  by_cases hnx : (d.Write
      (((0x80 : UInt8) :: List.replicate (64 + 8 - 1) 0).take
        (if d.len % 64 < 56 then 56 - d.len % 64 else 64 + 56 - d.len % 64)
        ++ binary.PutUint64 ((d.len <<< 3) % 2 ^ 64))).1.nx ≠ 0
  · rw [if_pos hnx, if_pos hnx]
  · rw [if_neg hnx, if_neg hnx, hd]

/-- The checked `Sum` after a checked `Write` to a new digest does not panic and
appends the SHA-256 digest of the message. -/
theorem Sum_checked (m inp : List UInt8) :
    Checked.sha256.Sum (New.Write m).1 inp = Except.ok (inp ++ Spec.SHA256 m) := by
  obtain ⟨h, hl, -⟩ := Write_spec New [] m New_absorbed.1 New_absorbed.2
  rw [List.nil_append] at h hl
  unfold Checked.sha256.Sum
  simp only
  rw [checkSum_checked _ m h hl, checkSum_spec _ m h hl, ok_bind,
    slice_to_ok _ _ (Nat.le_refl _), ok_bind, List.take_length]
  rfl

/-- The checked `calculateHash` does not panic and returns what `calculateHash`
returns. -/
theorem calculateHash_checked (block : Block) (g : Globals) :
    Checked.calculateHash block g = calculateHash block g := by
  rw [calculateHash_eq]
  unfold Checked.calculateHash
  rw [intstring_checked, ok_bind, intstring_checked, ok_bind]
  simp only
  rw [Write_checked New [] _ New_absorbed.1, ok_bind, Sum_checked, ok_bind,
    EncodeToString_checked _ (by rw [List.nil_append, SHA256_length]; decide), ok_bind,
    Encode_eq, List.nil_append]
  rfl

end CheckedHasher

/-- The checks are not idle: outside the states that `calculateHash` reaches the
checked code panics where Go panics, on a chunk shorter than 64 bytes (an index
of `p`), on a buffer position beyond the buffer (the slice `d.x[d.nx:]`), and
on a destination too short for `PutUint32`. -/
theorem checked_panics_outside_domain :
    (Checked.sha256.blockChunk sha256.init []).toBool = false ∧
    (Checked.sha256.Write { sha256.New with nx := 65 } [1]).toBool = false ∧
    (Checked.binary.PutUint32 [0, 0, 0] 1).toBool = false := by
  decide!

/-! ## The claims -/

section Claims
open runtime

/-- C1. For every Block `b` (and whatever the package variables hold),
`calculateHash(b)` returns the lowercase hexadecimal encoding of the SHA-256
digest of the bytes `text(b.Index) ++ b.Timestamp ++ text(b.BPM) ++ b.PrevHash`,
in that order, where `text` is Go's conversion `string(int)`. -/
theorem C1_calculateHash_hex_sha256 (b : Block) (g : Globals) :
    Except.map Outcome.ret (calculateHash b g) =
      Except.ok (Spec.hexLower (Spec.SHA256
        (intstring b.Index ++ b.Timestamp ++ intstring b.BPM ++ b.PrevHash))) :=
  ret_calculateHash b g

/-- C2. For every Block (any integers, any strings, empty ones included) the
string returned by `calculateHash` has exactly 64 characters and each of them
is one of `0`-`9`, `a`-`f`. -/
theorem C2_calculateHash_64_hex_chars (b : Block) (g : Globals) :
    ∃ s : GoString, Except.map Outcome.ret (calculateHash b g) = Except.ok s ∧
      s.length = 64 ∧ ∀ c ∈ s, Spec.isLowerHexChar c :=
  ⟨_, ret_calculateHash b g, by rw [hexLower_length, SHA256_length], hexLower_chars _⟩

/-- C3 (the code at the failing input). The blocks with `Index` 55296 and 55297
and all other fields equal differ only in the index, and `calculateHash`
returns the same string for both. -/
theorem C3_distinct_index_same_hash :
    (55296 : Int) ≠ 55297 ∧
    ∀ g : Globals,
      Except.map Outcome.ret
          (calculateHash ⟨55296, lit "2024-06-24T00:00:00Z", 60, [], []⟩ g) =
        Except.ok (lit "ecfb8f5b5601be14d5ab7f418c9a9fbda574e0c25bc73d687be7560b3899404e") ∧
      Except.map Outcome.ret
          (calculateHash ⟨55297, lit "2024-06-24T00:00:00Z", 60, [], []⟩ g) =
        Except.ok (lit "ecfb8f5b5601be14d5ab7f418c9a9fbda574e0c25bc73d687be7560b3899404e") := by
  refine ⟨by decide, fun g => ⟨?_, ?_⟩⟩
  · rw [ret_calculateHash]; exact congrArg Except.ok (by decide!)
  · rw [ret_calculateHash]; exact congrArg Except.ok (by decide!)

/-- C4. `calculateHash` depends only on `Index`, `Timestamp`, `BPM` and
`PrevHash`: two Blocks that agree on these four fields get the same string,
whatever their `Hash` fields and whatever the package variable `Blockchain`
holds at either call. -/
theorem C4_depends_only_on_four_fields (b1 b2 : Block) (g1 g2 : Globals)
    (hI : b1.Index = b2.Index) (hT : b1.Timestamp = b2.Timestamp)
    (hB : b1.BPM = b2.BPM) (hP : b1.PrevHash = b2.PrevHash) :
    Except.map Outcome.ret (calculateHash b1 g1) =
      Except.map Outcome.ret (calculateHash b2 g2) := by
  rw [ret_calculateHash, ret_calculateHash]
  unfold calculateHash.record
  rw [hI, hT, hB, hP]

/-- C4 at two Blocks with different `Hash` fields and different `Blockchain`
contents. -/
theorem C4_depends_only_on_four_fields_witness :
    (lit "aa" ≠ lit "bb") ∧
    Except.map Outcome.ret
        (calculateHash ⟨7, lit "2024-06-24T00:00:00Z", 60, lit "aa", lit "p"⟩ ⟨[]⟩) =
      Except.map Outcome.ret
        (calculateHash ⟨7, lit "2024-06-24T00:00:00Z", 60, lit "bb", lit "p"⟩
          ⟨[⟨0, [], 0, [], []⟩]⟩) :=
  ⟨by decide, C4_depends_only_on_four_fields _ _ _ _ rfl rfl rfl rfl⟩

/-- C5. `calculateHash` is total and has no error outcome: for every Block
(negative or huge `Index` and `BPM`, empty or arbitrary-byte strings) the call
returns normally. This holds for the code run with every index expression and
every slice expression checked as Go checks them at run time and with the
explicit panic of `checkSum`: no check fails, the panic is not reached, and the
outcome is the one of `calculateHash`. -/
theorem C5_calculateHash_total (b : Block) (g : Globals) :
    (∃ o : Outcome, Checked.calculateHash b g = Except.ok o ∧ calculateHash b g = Except.ok o) ∧
      (∀ e : String, Checked.calculateHash b g ≠ Except.error e) ∧
      ∀ e : String, calculateHash b g ≠ Except.error e := by
  rw [calculateHash_checked, calculateHash_eq]
  refine ⟨⟨_, rfl, rfl⟩, ?_, ?_⟩
  · intro e h
    cases h
  · intro e h
    cases h

/-- C6. `calculateHash` has no side effect: after the call the package
variables, `Blockchain` in particular, are what they were, and the parameter
`block` still holds the argument, its `Hash` field included; the computed hash
is only returned. -/
theorem C6_calculateHash_no_side_effect (b : Block) (g : Globals) :
    ∃ o : Outcome, calculateHash b g = Except.ok o ∧
      o.globals = g ∧ o.globals.Blockchain = g.Blockchain ∧
      o.block = b ∧ o.block.Hash = b.Hash := by
  rw [calculateHash_eq]
  exact ⟨_, rfl, rfl, rfl, rfl, rfl⟩

/-- C7. For the block with index 0, timestamp `2024-06-24T00:00:00Z`, value 60
and empty prevHash, the bytes hashed are the 22 bytes `0x00`, the 20 ASCII
bytes of the timestamp, `0x3C`; the string returned is the lowercase
hexadecimal SHA-256 digest of these 22 bytes, `c106d8f6...58b8e0`, and it is
not the digest of the decimal rendering `02024-06-24T00:00:00Z60`. -/
theorem C7_concrete_block (hash : GoString) (g : Globals) :
    calculateHash.record ⟨0, lit "2024-06-24T00:00:00Z", 60, hash, lit ""⟩ =
        [0x00] ++ lit "2024-06-24T00:00:00Z" ++ [0x3C] ∧
    ([0x00] ++ lit "2024-06-24T00:00:00Z" ++ [0x3C] : GoString).length = 22 ∧
    (lit "2024-06-24T00:00:00Z").length = 20 ∧
    Except.map Outcome.ret
        (calculateHash ⟨0, lit "2024-06-24T00:00:00Z", 60, hash, lit ""⟩ g) =
      Except.ok (Spec.hexLower (Spec.SHA256
        ([0x00] ++ lit "2024-06-24T00:00:00Z" ++ [0x3C]))) ∧
    Spec.hexLower (Spec.SHA256 ([0x00] ++ lit "2024-06-24T00:00:00Z" ++ [0x3C])) =
      lit "c106d8f6cee42e72319f82d5b92bb54d29977ddf9d59658f11c69c617c58b8e0" ∧
    Spec.decimal 0 ++ lit "2024-06-24T00:00:00Z" ++ Spec.decimal 60 ++ lit "" =
      lit "02024-06-24T00:00:00Z60" ∧
    Except.map Outcome.ret
        (calculateHash ⟨0, lit "2024-06-24T00:00:00Z", 60, hash, lit ""⟩ g) ≠
      Except.ok (Spec.hexLower (Spec.SHA256 (lit "02024-06-24T00:00:00Z60"))) := by
  have hrec : calculateHash.record ⟨0, lit "2024-06-24T00:00:00Z", 60, hash, lit ""⟩ =
      [0x00] ++ lit "2024-06-24T00:00:00Z" ++ [0x3C] := by
    show intstring 0 ++ lit "2024-06-24T00:00:00Z" ++ intstring 60 ++ lit "" = _
    decide!
  refine ⟨hrec, by decide!, by decide!, ?_, by decide!, by decide!, ?_⟩
  · rw [ret_calculateHash, hrec]
  · rw [ret_calculateHash, hrec]
    intro h
    exact absurd (Except.ok.inj h) (by decide!)

/-- C9. Every integer that is not a Unicode scalar value (negative, surrogate,
or above 0x10FFFF) converts to the three bytes `EF BF BD`; so two Blocks whose
`Index` values are both such integers and whose `Timestamp`, `BPM` and
`PrevHash` agree get the same hash, and likewise for two such `BPM` values. -/
theorem C9_invalid_code_points_collapse (m n : Int)
    (hm : ¬ Spec.validScalar m) (hn : ¬ Spec.validScalar n) :
    intstring m = [0xEF, 0xBF, 0xBD] ∧ intstring n = [0xEF, 0xBF, 0xBD] ∧
    (∀ (t p h1 h2 : GoString) (v : Int) (g1 g2 : Globals),
      Except.map Outcome.ret (calculateHash ⟨m, t, v, h1, p⟩ g1) =
        Except.map Outcome.ret (calculateHash ⟨n, t, v, h2, p⟩ g2)) ∧
    (∀ (t p h1 h2 : GoString) (i : Int) (g1 g2 : Globals),
      Except.map Outcome.ret (calculateHash ⟨i, t, m, h1, p⟩ g1) =
        Except.map Outcome.ret (calculateHash ⟨i, t, n, h2, p⟩ g2)) := by
  have em := intstring_invalid m hm
  have en := intstring_invalid n hn
  refine ⟨em, en, ?_, ?_⟩
  · intro t p h1 h2 v g1 g2
    rw [ret_calculateHash, ret_calculateHash]
    unfold calculateHash.record
    simp only [em, en]
  · intro t p h1 h2 i g1 g2
    rw [ret_calculateHash, ret_calculateHash]
    unfold calculateHash.record
    simp only [em, en]

/-- C9 at the integers -1 and 0xD800. -/
theorem C9_invalid_code_points_collapse_witness :
    ¬ Spec.validScalar (-1) ∧ ¬ Spec.validScalar 0xD800 ∧
      Except.map Outcome.ret (calculateHash ⟨-1, lit "t", 60, [], lit "p"⟩ ⟨[]⟩) =
        Except.map Outcome.ret (calculateHash ⟨0xD800, lit "t", 60, [], lit "p"⟩ ⟨[]⟩) :=
  ⟨by decide, by decide,
   (C9_invalid_code_points_collapse (-1) 0xD800 (by decide) (by decide)).2.2.1
     (lit "t") (lit "p") [] [] 60 ⟨[]⟩ ⟨[]⟩⟩

/-- C10. The hashed concatenation has no separators or length prefixes and is
not injective: the Blocks `(Index 0, BPM 65, Timestamp x, PrevHash Ay)` and
`(Index 0, BPM 65, Timestamp xA, PrevHash y)` differ in `Timestamp` and
`PrevHash`, yet both hash the bytes `0x00 x A A y` and get the same result. -/
theorem C10_concatenation_not_injective :
    ∃ b1 b2 : Block,
      b1 = ⟨0, lit "x", 65, [], lit "Ay"⟩ ∧ b2 = ⟨0, lit "xA", 65, [], lit "y"⟩ ∧
      b1.Index = b2.Index ∧ b1.BPM = b2.BPM ∧
      b1.Timestamp ≠ b2.Timestamp ∧ b1.PrevHash ≠ b2.PrevHash ∧
      calculateHash.record b1 = [0x00] ++ lit "xAAy" ∧
      calculateHash.record b2 = [0x00] ++ lit "xAAy" ∧
      ∀ g : Globals, Except.map Outcome.ret (calculateHash b1 g) =
        Except.map Outcome.ret (calculateHash b2 g) := by
  have r1 : calculateHash.record ⟨0, lit "x", 65, [], lit "Ay"⟩ = [0x00] ++ lit "xAAy" := by
    decide!
  have r2 : calculateHash.record ⟨0, lit "xA", 65, [], lit "y"⟩ = [0x00] ++ lit "xAAy" := by
    decide!
  refine ⟨_, _, rfl, rfl, rfl, rfl, by decide!, by decide!, r1, r2, ?_⟩
  intro g
  rw [ret_calculateHash, ret_calculateHash, r1, r2]

/-- Two records that share the index and value segments and the `PrevHash` are
equal only if the `Timestamp` strings are equal. -/
theorem record_timestamp_cancel (a t1 t2 c p : GoString)
    (h : a ++ t1 ++ c ++ p = a ++ t2 ++ c ++ p) : t1 = t2 := by
  have h1 := (List.append_left_inj p).mp h
  have h2 := (List.append_left_inj c).mp h1
  exact (List.append_right_inj a).mp h2

/-- C11. At the level of the bytes fed to SHA-256 a change to one string field
is always visible: two Blocks with the same `Index` and `BPM` that differ in
`Timestamp` alone (same `PrevHash`), or in `PrevHash` alone (same `Timestamp`),
have different hashed byte sequences; so if `calculateHash` returns the same
string for them, SHA-256 has a collision on two different messages. -/
theorem C11_string_field_change_visible (b1 b2 : Block) (g1 g2 : Globals)
    (hI : b1.Index = b2.Index) (hB : b1.BPM = b2.BPM)
    (h : (b1.PrevHash = b2.PrevHash ∧ b1.Timestamp ≠ b2.Timestamp) ∨
      (b1.Timestamp = b2.Timestamp ∧ b1.PrevHash ≠ b2.PrevHash)) :
    calculateHash.record b1 ≠ calculateHash.record b2 ∧
    (Except.map Outcome.ret (calculateHash b1 g1) =
        Except.map Outcome.ret (calculateHash b2 g2) →
      Spec.SHA256 (calculateHash.record b1) = Spec.SHA256 (calculateHash.record b2)) := by
  constructor
  · intro e
    unfold calculateHash.record at e
    rw [hI, hB] at e
    rcases h with ⟨hp, ht⟩ | ⟨ht, hp⟩
    · rw [hp] at e
      exact ht (record_timestamp_cancel _ _ _ _ _ e)
    · rw [ht] at e
      exact hp ((List.append_right_inj _).mp e)
  · intro e
    rw [ret_calculateHash, ret_calculateHash] at e
    exact hexLower_injective _ _ (Except.ok.inj e)

/-- C11 at two Blocks that differ in `Timestamp` alone and at two that differ in
`PrevHash` alone. -/
theorem C11_string_field_change_visible_witness :
    (lit "2024-06-24T00:00:00Z" ≠ lit "2024-06-24T00:00:01Z" ∧
      calculateHash.record ⟨1, lit "2024-06-24T00:00:00Z", 60, [], lit "ab"⟩ ≠
        calculateHash.record ⟨1, lit "2024-06-24T00:00:01Z", 60, [], lit "ab"⟩) ∧
    (lit "ab" ≠ lit "ac" ∧
      calculateHash.record ⟨1, lit "2024-06-24T00:00:00Z", 60, [], lit "ab"⟩ ≠
        calculateHash.record ⟨1, lit "2024-06-24T00:00:00Z", 60, [], lit "ac"⟩) :=
  ⟨⟨by decide!,
    (C11_string_field_change_visible
      ⟨1, lit "2024-06-24T00:00:00Z", 60, [], lit "ab"⟩
      ⟨1, lit "2024-06-24T00:00:01Z", 60, [], lit "ab"⟩ ⟨[]⟩ ⟨[]⟩ rfl rfl
      (Or.inl ⟨rfl, by decide!⟩)).1⟩,
   ⟨by decide!,
    (C11_string_field_change_visible
      ⟨1, lit "2024-06-24T00:00:00Z", 60, [], lit "ab"⟩
      ⟨1, lit "2024-06-24T00:00:00Z", 60, [], lit "ac"⟩ ⟨[]⟩ ⟨[]⟩ rfl rfl
      (Or.inr ⟨rfl, by decide!⟩)).1⟩⟩

end Claims

end GoBlockchain
